import Mathlib

/-!
# Verification of the `linfa-nn` BallTree spatial index

A shallow embedding, in Lean 4, of `src/algorithms/linfa-nn/src/balltree.rs`
from the `linfa` repository, together with theorems settling the claims about
its specification.

Modelling conventions:

* The code is generic over a float type `F: Float`.  We embed coordinates as
  exact rationals `ℚ`; IEEE-754 artifacts (NaN, rounding, infinities) are not
  representable.  The value `F::infinity()` used by `k_nearest` is embedded as
  `⊤ : WithTop ℚ`, and all comparisons against the maximum radius are carried
  out in `WithTop ℚ`.
* A point (`Point<F>`, a row view into the batch) is a `List ℚ`.
* Rust `BinaryHeap<MinHeapElem>` / `BinaryHeap<MaxHeapElem>` (file
  `heap_elem.rs`, not part of the provided sources) are modelled as lists kept
  sorted by key in ascending order: popping the min-heap takes the head;
  peeking/popping the max-heap takes/drops the last element;
  `into_sorted_vec` on the max-heap is the identity.  The choice among
  elements with equal keys is unspecified in `BinaryHeap`; the sorted-list
  model fixes one deterministic choice.
* `order_stat::kth_by` partially reorders the vector so that the element of
  rank `mid` (by the coordinate on the split dimension) sits at index `mid`;
  which element of a tie class is chosen, and the final order of the vector,
  are unspecified.  We model it by a stable insertion sort on the key,
  indexing at `mid`; the subsequent `Vec::partition` is applied to the sorted
  list.  Multiset-wise this agrees with every behaviour the source allows.
* Rust functions that can panic (`expect`/`unwrap`) are embedded with the
  panic case made explicit (`Option`, or a designated `NnResult.panic`
  constructor) where a claim depends on it.
* Recursions that the source performs on shrinking vectors are embedded with
  an explicit fuel argument (initialised so that it never runs out for the
  inputs the source terminates on), keeping every definition executable.
-/

/-- A point: an immutable view over an ordered sequence of coordinates. -/
abbrev Pt := List ℚ

/-- Modelled from the spec: the `Distance` trait of `linfa-nn` (file
`distance.rs`, not part of the provided sources).  Operations per §4.1 of the
spec: real distance, reduced distance, and the two conversions.  Contract per
§4.1: `rdistance` is the monotone image of `distance` under `dist_to_rdist`,
and the conversions are order-preserving mutual inverses.  The balltree's
pruning additionally relies on `distance` being a (pseudo)metric on points of
equal dimension — nonnegative and satisfying the triangle inequality — which
is what the bounding-sphere reasoning in `balltree.rs` (doc comment of
`BallTree`) assumes of a "distance". -/
structure Distance where
  distance : Pt → Pt → ℚ
  rdistance : Pt → Pt → ℚ
  dist_to_rdist : ℚ → ℚ
  rdist_to_dist : ℚ → ℚ
  nonneg : ∀ a b : Pt, 0 ≤ distance a b
  triangle : ∀ a b c : Pt, a.length = b.length → b.length = c.length →
    distance a c ≤ distance a b + distance b c
  rdist_eq : ∀ a b : Pt, rdistance a b = dist_to_rdist (distance a b)
  d2r_mono : ∀ a b : ℚ, a ≤ b → dist_to_rdist a ≤ dist_to_rdist b
  r2d_d2r : ∀ a : ℚ, rdist_to_dist (dist_to_rdist a) = a

namespace Distance

theorem d2r_le_iff (D : Distance) {a b : ℚ} :
    D.dist_to_rdist a ≤ D.dist_to_rdist b ↔ a ≤ b := by
  constructor
  · intro h
    by_contra h'
    push_neg at h'
    have hm := D.d2r_mono b a h'.le
    have heq : D.dist_to_rdist a = D.dist_to_rdist b := le_antisymm h hm
    have := congrArg D.rdist_to_dist heq
    rw [D.r2d_d2r, D.r2d_d2r] at this
    exact absurd this (ne_of_gt h')
  · exact D.d2r_mono a b

theorem d2r_lt_iff (D : Distance) {a b : ℚ} :
    D.dist_to_rdist a < D.dist_to_rdist b ↔ a < b := by
  constructor
  · intro h
    by_contra h'
    push_neg at h'
    exact absurd (D.d2r_mono b a h') (not_le.mpr h)
  · intro h
    rcases lt_or_le (D.dist_to_rdist a) (D.dist_to_rdist b) with h' | h'
    · exact h'
    · exact absurd (D.d2r_le_iff.mp h') (not_le.mpr h)

theorem rdist_le_iff (D : Distance) {q a b : Pt} :
    D.rdistance q a ≤ D.rdistance q b ↔ D.distance q a ≤ D.distance q b := by
  rw [D.rdist_eq, D.rdist_eq, D.d2r_le_iff]

end Distance

/-- Manhattan (L1) distance between two coordinate lists of equal length;
used to instantiate the abstract distance contract on concrete inputs. -/
def l1d (a b : Pt) : ℚ := (List.zipWith (fun x y => |x - y|) a b).sum

theorem l1d_nonneg : ∀ a b : Pt, 0 ≤ l1d a b := by
  intro a
  induction a with
  | nil => intro b; simp [l1d]
  | cons x xs ih =>
    intro b
    cases b with
    | nil => simp [l1d]
    | cons y ys =>
      have := ih ys
      simp only [l1d, List.zipWith_cons_cons, List.sum_cons]
      have habs : (0:ℚ) ≤ |x - y| := abs_nonneg _
      simpa [l1d] using add_nonneg habs this

theorem l1d_triangle : ∀ a b c : Pt, a.length = b.length → b.length = c.length →
    l1d a c ≤ l1d a b + l1d b c := by
  intro a
  induction a with
  | nil =>
    intro b c hab hbc
    cases b with
    | nil =>
      cases c with
      | nil => simp [l1d]
      | cons z zs => simp at hbc
    | cons y ys => simp at hab
  | cons x xs ih =>
    intro b c hab hbc
    cases b with
    | nil => simp at hab
    | cons y ys =>
      cases c with
      | nil => simp at hbc
      | cons z zs =>
        simp only [List.length_cons, Nat.succ.injEq] at hab hbc
        have hrec := ih ys zs hab hbc
        have habs : |x - z| ≤ |x - y| + |y - z| := abs_sub_le x y z
        simp only [l1d, List.zipWith_cons_cons, List.sum_cons] at *
        linarith

/-- The default concrete metric used for witnesses: Manhattan distance with
identity conversions (its reduced form is itself). -/
def l1Dist : Distance where
  distance := l1d
  rdistance := l1d
  dist_to_rdist := id
  rdist_to_dist := id
  nonneg := l1d_nonneg
  triangle := l1d_triangle
  rdist_eq := fun _ _ => rfl
  d2r_mono := fun _ _ h => h
  r2d_d2r := fun _ => rfl

/-! ## Maximum / minimum of a nonempty list of rationals

Embeds the `Iterator::max()` / `min()` calls (on `NoisyFloat`-wrapped values)
in `partition` and `calc_radius`.  The empty-list default `0` is never reached
on the paths the source executes (the source `expect`s/`unwrap`s there). -/

/-- Maximum of a list of rationals (`0` for the empty list, unreachable in use). -/
def listMax : List ℚ → ℚ
  | [] => 0
  | x :: xs => xs.foldl max x

/-- Minimum of a list of rationals (`0` for the empty list, unreachable in use). -/
def listMin : List ℚ → ℚ
  | [] => 0
  | x :: xs => xs.foldl min x

theorem foldl_max_le_iff {l : List ℚ} {a c : ℚ} :
    l.foldl max a ≤ c ↔ a ≤ c ∧ ∀ x ∈ l, x ≤ c := by
  induction l generalizing a with
  | nil => simp
  | cons y ys ih =>
    simp only [List.foldl_cons, ih, max_le_iff, List.mem_cons]
    constructor
    · rintro ⟨⟨h1, h2⟩, h3⟩
      exact ⟨h1, fun x hx => hx.elim (fun hx => hx ▸ h2) (h3 x)⟩
    · rintro ⟨h1, h2⟩
      exact ⟨⟨h1, h2 y (Or.inl rfl)⟩, fun x hx => h2 x (Or.inr hx)⟩

theorem le_listMax {l : List ℚ} {x : ℚ} (hx : x ∈ l) : x ≤ listMax l := by
  cases l with
  | nil => cases hx
  | cons a as =>
    have h := foldl_max_le_iff (l := as) (a := a) (c := as.foldl max a)
    rcases List.mem_cons.mp hx with h' | h'
    · exact h' ▸ (h.mp le_rfl).1
    · exact (h.mp le_rfl).2 x h'

theorem foldl_max_mem : ∀ (as : List ℚ) (a : ℚ), as.foldl max a ∈ a :: as := by
  intro as
  induction as with
  | nil => intro a; simp
  | cons b bs ih =>
    intro a
    simp only [List.foldl_cons]
    rcases max_choice a b with hm | hm <;> rw [hm]
    · rcases List.mem_cons.mp (ih a) with h' | h'
      · rw [h']; exact List.mem_cons_self a _
      · exact List.mem_cons_of_mem a (List.mem_cons_of_mem b h')
    · rcases List.mem_cons.mp (ih b) with h' | h'
      · rw [h']; exact List.mem_cons_of_mem a (List.mem_cons_self b bs)
      · exact List.mem_cons_of_mem a (List.mem_cons_of_mem b h')

theorem listMax_mem {l : List ℚ} (h : l ≠ []) : listMax l ∈ l := by
  cases l with
  | nil => exact absurd rfl h
  | cons a as => exact foldl_max_mem as a

/-! ## The partitioning routine (`partition` in `balltree.rs`) -/

/-- Coordinate access `p[i]` (out-of-range default `0`; the source indexes
in-range everywhere it executes). -/
def coordD (p : Pt) (i : ℕ) : ℚ := p.getD i 0

/-- Range (max − min) of the points' coordinates on dimension `i`; the spread
measure of `partition`. -/
def spread (points : List Pt) (i : ℕ) : ℚ :=
  listMax (points.map fun p => coordD p i) - listMin (points.map fun p => coordD p i)

/-- The dimension of maximal spread.  `Iterator::max_by_key` keeps the last
maximal element on ties, hence the `≤` in the fold. -/
def splitDim (points : List Pt) : ℕ :=
  (List.range (points.headD []).length).foldl
    (fun best i => if spread points best ≤ spread points i then i else best) 0

/-- The order on points used for median selection on the split dimension. -/
def keyLE (sd : ℕ) (a b : Pt) : Prop := coordD a sd ≤ coordD b sd

instance (sd : ℕ) : DecidableRel (keyLE sd) := fun a b => by
  unfold keyLE; infer_instance

/-- The points after `order_stat::kth_by` has run: partially reordered so the
median sits at rank `len/2`; modelled by a stable full sort on the key. -/
def partSorted (points : List Pt) : List Pt :=
  points.insertionSort (keyLE (splitDim points))

/-- The median returned by `order_stat::kth_by(&mut points, mid, ...)`:
the element of rank `len/2` on the split-dimension coordinate. -/
def partMedian (points : List Pt) : Pt :=
  (partSorted points).getD (points.length / 2) []

/-- The `Vec::partition` call: elements strictly below the median's
coordinate on the split dimension versus the rest. -/
def partPair (points : List Pt) : List Pt × List Pt :=
  (partSorted points).partition fun p =>
    decide (coordD p (splitDim points) < coordD (partMedian points) (splitDim points))

/-- `partition` from `balltree.rs`: split the points at the median of the
dimension of maximal spread.  Median selection by `order_stat::kth_by` at rank
`len/2` is modelled by a stable sort on the key followed by indexing (see the
header note); the `Vec::partition` by strict key inequality and the
degenerate-data guard (`left.push(right.pop())` when `left` came out empty)
are as in the source. -/
def partition (points : List Pt) : List Pt × Pt × List Pt :=
  if (partPair points).1.isEmpty then
    ([(partPair points).2.getLastD []], partMedian points, (partPair points).2.dropLast)
  else
    ((partPair points).1, partMedian points, (partPair points).2)

theorem partSorted_perm (points : List Pt) : (partSorted points).Perm points :=
  List.perm_insertionSort _ _

theorem partSorted_length (points : List Pt) :
    (partSorted points).length = points.length :=
  (partSorted_perm points).length_eq

theorem partMedian_mem (points : List Pt) (h : 1 ≤ points.length) :
    partMedian points ∈ points := by
  have hmid : points.length / 2 < (partSorted points).length := by
    rw [partSorted_length]
    exact Nat.div_lt_self (by omega) (by omega)
  rw [partMedian, List.getD_eq_getElem _ _ hmid]
  exact (partSorted_perm points).subset (List.getElem_mem hmid)

theorem partMedian_mem_sorted (points : List Pt) (h : 1 ≤ points.length) :
    partMedian points ∈ partSorted points := by
  have hmid : points.length / 2 < (partSorted points).length := by
    rw [partSorted_length]
    exact Nat.div_lt_self (by omega) (by omega)
  rw [partMedian, List.getD_eq_getElem _ _ hmid]
  exact List.getElem_mem hmid

theorem partPair_eq (points : List Pt) :
    partPair points =
      ((partSorted points).filter
        (fun p => decide (coordD p (splitDim points) <
          coordD (partMedian points) (splitDim points))),
       (partSorted points).filter
        (not ∘ fun p => decide (coordD p (splitDim points) <
          coordD (partMedian points) (splitDim points)))) := by
  rw [partPair, List.partition_eq_filter_filter]

theorem partPair_snd_ne_nil (points : List Pt) (h : 1 ≤ points.length) :
    (partPair points).2 ≠ [] := by
  have hmem : partMedian points ∈ (partPair points).2 := by
    rw [partPair_eq]
    show partMedian points ∈ List.filter _ _
    rw [List.mem_filter]
    refine ⟨partMedian_mem_sorted points h, ?_⟩
    simp [lt_irrefl]
  intro hnil
  rw [hnil] at hmem
  cases hmem

theorem partPair_append_perm (points : List Pt) :
    ((partPair points).1 ++ (partPair points).2).Perm (partSorted points) := by
  rw [partPair_eq]
  exact List.filter_append_perm _ _

/-- When the strict-left part is empty, every point ties with or exceeds the
median, so the non-strict part is the whole (reordered) input. -/
theorem partPair_snd_of_empty (points : List Pt)
    (hE : (partPair points).1 = []) : (partPair points).2 = partSorted points := by
  have h1 := partPair_eq points
  have hfil : (partSorted points).filter
      (fun p => decide (coordD p (splitDim points) <
        coordD (partMedian points) (splitDim points))) = [] := by
    rw [partPair_eq] at hE
    exact hE
  rw [List.filter_eq_nil_iff] at hfil
  rw [h1]
  rw [List.filter_eq_self]
  intro a ha
  simp only [Function.comp, Bool.not_eq_true']
  exact decide_eq_false (by simpa using hfil a ha)

theorem partition_median_eq (points : List Pt) :
    (partition points).2.1 = partMedian points := by
  unfold partition
  split <;> rfl

theorem partition_left_ne_nil (points : List Pt) :
    (partition points).1 ≠ [] := by
  unfold partition
  split
  · simp
  · rename_i hE
    rw [List.isEmpty_iff] at hE
    exact hE

theorem partition_right_ne_nil (points : List Pt) (h2 : 2 ≤ points.length) :
    (partition points).2.2 ≠ [] := by
  unfold partition
  split
  · rename_i hE
    rw [List.isEmpty_iff] at hE
    have h2' := partPair_snd_of_empty points hE
    have hlen : (partPair points).2.dropLast.length = points.length - 1 := by
      rw [List.length_dropLast, h2', partSorted_length]
    show (partPair points).2.dropLast ≠ []
    rw [← List.length_pos]
    omega
  · exact partPair_snd_ne_nil points (by omega)

theorem partition_perm (points : List Pt) (h2 : 2 ≤ points.length) :
    ((partition points).1 ++ (partition points).2.2).Perm points := by
  unfold partition
  split
  · rename_i hE
    rw [List.isEmpty_iff] at hE
    have h2' := partPair_snd_of_empty points hE
    have hne : (partPair points).2 ≠ [] := partPair_snd_ne_nil points (by omega)
    have hsplit : (partPair points).2.dropLast ++ [(partPair points).2.getLastD []] =
        (partPair points).2 := by
      rw [List.getLastD_eq_getLast?, List.getLast?_eq_getLast _ hne]
      exact List.dropLast_concat_getLast hne
    refine List.Perm.trans List.perm_append_comm ?_
    rw [hsplit, h2']
    exact partSorted_perm points
  · refine List.Perm.trans (partPair_append_perm points) (partSorted_perm points)

theorem partition_mem (points : List Pt) (h2 : 2 ≤ points.length) {p : Pt}
    (hp : p ∈ (partition points).1 ++ (partition points).2.2) : p ∈ points :=
  (partition_perm points h2).subset hp

theorem partition_lengths (points : List Pt) (h2 : 2 ≤ points.length) :
    (partition points).1.length < points.length ∧
    (partition points).2.2.length < points.length ∧
    (partition points).1.length + (partition points).2.2.length = points.length := by
  have hsum := (partition_perm points h2).length_eq
  rw [List.length_append] at hsum
  have hl : 0 < (partition points).1.length :=
    List.length_pos.mpr (partition_left_ne_nil points)
  have hr : 0 < (partition points).2.2.length :=
    List.length_pos.mpr (partition_right_ne_nil points h2)
  omega

/-- Whenever some input point lies strictly below the median on the split
dimension, the degenerate guard does not fire and the left part is exactly
the set of strictly smaller points. -/
theorem partition_strict (points : List Pt)
    (hex : ∃ p ∈ points, coordD p (splitDim points) <
      coordD (partMedian points) (splitDim points)) :
    ∀ p ∈ (partition points).1,
      coordD p (splitDim points) < coordD (partMedian points) (splitDim points) := by
  obtain ⟨w, hw, hwlt⟩ := hex
  have hwmem : w ∈ (partPair points).1 := by
    rw [partPair_eq, List.mem_filter]
    exact ⟨(partSorted_perm points).mem_iff.mpr hw, by simpa using hwlt⟩
  have hne : (partPair points).1 ≠ [] := by
    intro h; rw [h] at hwmem; cases hwmem
  unfold partition
  rw [if_neg (by simpa [List.isEmpty_iff] using hne)]
  intro p hp
  rw [partPair_eq, List.mem_filter] at hp
  simpa using hp.2

/-! ## The tree (`BallTreeInner` in `balltree.rs`) -/

/-- The recursive tagged-union tree: a `Leaf` owns its centroid, radius and
points; a `Branch` owns the split median as center, a bounding radius over
both children, and the two children. -/
inductive BallTreeInner where
  | leaf (center : Pt) (radius : ℚ) (points : List Pt)
  | branch (center : Pt) (radius : ℚ) (left : BallTreeInner) (right : BallTreeInner)
deriving DecidableEq

/-- The center of a node (either variant), as read by `BallTreeInner::rdistance`. -/
def nodeCenter : BallTreeInner → Pt
  | .leaf c _ _ => c
  | .branch c _ _ _ => c

/-- The radius of a node (either variant), as read by `BallTreeInner::rdistance`. -/
def nodeRadius : BallTreeInner → ℚ
  | .leaf _ r _ => r
  | .branch _ r _ _ => r

/-- All points transitively contained under a node. -/
def contained : BallTreeInner → List Pt
  | .leaf _ _ pts => pts
  | .branch _ _ l r => contained l ++ contained r

/-- Number of nodes of a subtree (used to size the query loop's fuel). -/
def treeSize : BallTreeInner → ℕ
  | .leaf _ _ _ => 1
  | .branch _ _ l r => 1 + treeSize l + treeSize r

/-- Every node of a subtree, the node itself included. -/
def allNodes : BallTreeInner → List BallTreeInner
  | .leaf c r pts => [.leaf c r pts]
  | .branch c r l rt => .branch c r l rt :: (allNodes l ++ allNodes rt)

theorem treeSize_pos (t : BallTreeInner) : 1 ≤ treeSize t := by
  cases t <;> simp only [treeSize] <;> omega

/-- The centroid computation of a `Leaf`: coordinate-wise sum into a zero
vector of dimension `dim`, divided by the number of points. -/
def centroid (dim : ℕ) (points : List Pt) : Pt :=
  (points.foldl (fun c p => List.zipWith (· + ·) c p) (List.replicate dim 0)).map
    (fun x => x / (points.length : ℚ))

/-- `calc_radius` from `balltree.rs`: maximal reduced distance from the
points to the center, converted back to a real distance. -/
def calcRadius (D : Distance) (points : List Pt) (center : Pt) : ℚ :=
  D.rdist_to_dist (listMax (points.map fun p => D.rdistance p center))

theorem calcRadius_bound (D : Distance) (points : List Pt) (center : Pt)
    (hne : points ≠ []) {p : Pt} (hp : p ∈ points) :
    D.distance p center ≤ calcRadius D points center := by
  have hmapne : (points.map fun p => D.rdistance p center) ≠ [] := by
    simpa using hne
  have hmax_mem := listMax_mem hmapne
  rw [List.mem_map] at hmax_mem
  obtain ⟨w, hw, hweq⟩ := hmax_mem
  have hle : D.rdistance p center ≤ listMax (points.map fun p => D.rdistance p center) :=
    le_listMax (List.mem_map.mpr ⟨p, hp, rfl⟩)
  rw [← hweq] at hle
  rw [D.rdist_eq, D.rdist_eq] at hle
  have hld := D.d2r_le_iff.mp hle
  calc D.distance p center ≤ D.distance w center := hld
    _ = calcRadius D points center := by
        rw [calcRadius, ← hweq, D.rdist_eq, D.r2d_d2r]

/-- `BallTreeInner::new`, with the structural recursion on shrinking point
vectors made explicit through a fuel argument.  At fuel `0` the construction
is not entered further (for a positive `leaf_size` the initial fuel
`points.len()` is never exhausted; the only source execution that would need
more fuel, `leaf_size == 0` on a singleton, recurses forever). -/
def innerNewF (D : Distance) (leafSize : ℕ) : ℕ → List Pt → BallTreeInner
  | 0, points => .leaf [] 0 points
  | fuel + 1, points =>
    if points.length ≤ leafSize then
      match points with
      | [] => .leaf [] 0 []
      | p0 :: rest =>
        let c := centroid p0.length (p0 :: rest)
        .leaf c (calcRadius D (p0 :: rest) c) (p0 :: rest)
    else
      .branch (partition points).2.1
        (calcRadius D ((partition points).1 ++ (partition points).2.2)
          (partition points).2.1)
        (innerNewF D leafSize fuel (partition points).1)
        (innerNewF D leafSize fuel (partition points).2.2)

/-- `BallTreeInner::new(points, leaf_size, dist_fn)`. -/
def innerNew (D : Distance) (leafSize : ℕ) (points : List Pt) : BallTreeInner :=
  innerNewF D leafSize points.length points

/-- `BallTreeInner::rdistance`: reduced distance from a query point to the
edge of a node's bounding sphere — the lower bound used by the query engine. -/
def nodeRdist (D : Distance) (t : BallTreeInner) (p : Pt) : ℚ :=
  D.dist_to_rdist (max (D.distance p (nodeCenter t) - nodeRadius t) 0)

/-! ## Structural invariants of constructed trees -/

theorem centroid_length (dim : ℕ) (points : List Pt)
    (h : ∀ p ∈ points, p.length = dim) : (centroid dim points).length = dim := by
  rw [centroid, List.length_map]
  suffices hgen : ∀ (l : List Pt) (c : Pt), (∀ p ∈ l, p.length = dim) → c.length = dim →
      (l.foldl (fun c p => List.zipWith (· + ·) c p) c).length = dim by
    exact hgen points (List.replicate dim 0) h (by simp)
  intro l
  induction l with
  | nil => intro c _ hc; simpa using hc
  | cons p ps ih =>
    intro c hl hc
    simp only [List.foldl_cons]
    refine ih _ (fun x hx => hl x (List.mem_cons_of_mem p hx)) ?_
    rw [List.length_zipWith, hc, hl p (List.mem_cons_self p ps), Nat.min_self]

/-- Well-formedness of a constructed subtree over points of dimension `dim`:
centers have the right dimension, contained points have the right dimension,
and every contained point lies within the node's radius of its center — the
bounding-sphere invariant. -/
inductive WF (D : Distance) (dim : ℕ) : BallTreeInner → Prop where
  | leaf : ∀ {c : Pt} {r : ℚ} {pts : List Pt}, c.length = dim →
      (∀ p ∈ pts, p.length = dim) →
      (∀ p ∈ pts, D.distance p c ≤ r) → WF D dim (.leaf c r pts)
  | branch : ∀ {c : Pt} {r : ℚ} {l rt : BallTreeInner}, c.length = dim →
      (∀ p ∈ contained l ++ contained rt, D.distance p c ≤ r) →
      WF D dim l → WF D dim rt → WF D dim (.branch c r l rt)

theorem WF.center_length {D : Distance} {dim : ℕ} {t : BallTreeInner}
    (h : WF D dim t) : (nodeCenter t).length = dim := by
  cases h with
  | leaf hc _ _ => exact hc
  | branch hc _ _ _ => exact hc

theorem WF.contained_length {D : Distance} {dim : ℕ} {t : BallTreeInner}
    (h : WF D dim t) : ∀ p ∈ contained t, p.length = dim := by
  induction h with
  | leaf _ hlen _ => exact hlen
  | branch _ _ _ _ ihl ihr =>
    intro p hp
    rcases List.mem_append.mp hp with h' | h'
    · exact ihl p h'
    · exact ihr p h'

theorem WF.radius_bound {D : Distance} {dim : ℕ} {t : BallTreeInner}
    (h : WF D dim t) : ∀ p ∈ contained t, D.distance p (nodeCenter t) ≤ nodeRadius t := by
  cases h with
  | leaf _ _ hrad => exact hrad
  | branch _ hrad _ _ => exact hrad

/-- The lower-bound property of `BallTreeInner::rdistance`: no point contained
in a node is closer (in reduced distance) to the query than the edge of the
node's bounding sphere. -/
theorem nodeRdist_le {D : Distance} {dim : ℕ} {t : BallTreeInner} {q p : Pt}
    (hwf : WF D dim t) (hq : q.length = dim) (hp : p ∈ contained t) :
    nodeRdist D t q ≤ D.rdistance q p := by
  rw [nodeRdist, D.rdist_eq]
  apply D.d2r_mono
  rw [max_le_iff]
  constructor
  · have htri := D.triangle q p (nodeCenter t)
      (by rw [hq, hwf.contained_length p hp])
      (by rw [hwf.contained_length p hp, hwf.center_length])
    have hrad := hwf.radius_bound p hp
    linarith
  · exact D.nonneg q p

theorem innerNewF_succ_le (D : Distance) (leafSize fuel : ℕ) (points : List Pt)
    (hle : points.length ≤ leafSize) :
    innerNewF D leafSize (fuel + 1) points =
      match points with
      | [] => .leaf [] 0 []
      | p0 :: rest =>
        .leaf (centroid p0.length (p0 :: rest))
          (calcRadius D (p0 :: rest) (centroid p0.length (p0 :: rest)))
          (p0 :: rest) := by
  show (if points.length ≤ leafSize then _ else _) = _
  rw [if_pos hle]
  cases points <;> rfl

theorem innerNewF_succ_gt (D : Distance) (leafSize fuel : ℕ) (points : List Pt)
    (hle : ¬ points.length ≤ leafSize) :
    innerNewF D leafSize (fuel + 1) points =
      .branch (partition points).2.1
        (calcRadius D ((partition points).1 ++ (partition points).2.2)
          (partition points).2.1)
        (innerNewF D leafSize fuel (partition points).1)
        (innerNewF D leafSize fuel (partition points).2.2) := by
  show (if points.length ≤ leafSize then _ else _) = _
  rw [if_neg hle]

theorem contained_innerNewF (D : Distance) (leafSize : ℕ) (hls : 1 ≤ leafSize) :
    ∀ (fuel : ℕ) (points : List Pt), points.length ≤ fuel →
      (contained (innerNewF D leafSize fuel points)).Perm points := by
  intro fuel
  induction fuel with
  | zero =>
    intro points _
    exact List.Perm.refl _
  | succ fuel ih =>
    intro points hfuel
    by_cases hle : points.length ≤ leafSize
    · rw [innerNewF_succ_le D leafSize fuel points hle]
      match points with
      | [] => exact List.Perm.refl _
      | p0 :: rest => exact List.Perm.refl _
    · rw [innerNewF_succ_gt D leafSize fuel points hle]
      have h2 : 2 ≤ points.length := by omega
      have hlen := partition_lengths points h2
      have ihl := ih (partition points).1 (by omega)
      have ihr := ih (partition points).2.2 (by omega)
      show (contained (innerNewF D leafSize fuel (partition points).1) ++
        contained (innerNewF D leafSize fuel (partition points).2.2)).Perm points
      exact (ihl.append ihr).trans (partition_perm points h2)

theorem innerNewF_WF (D : Distance) (dim leafSize : ℕ) (hls : 1 ≤ leafSize) :
    ∀ (fuel : ℕ) (points : List Pt), points ≠ [] → points.length ≤ fuel →
      (∀ p ∈ points, p.length = dim) →
      WF D dim (innerNewF D leafSize fuel points) := by
  intro fuel
  induction fuel with
  | zero =>
    intro points hne hfuel _
    exact absurd (List.length_eq_zero.mp (Nat.le_zero.mp hfuel)) hne
  | succ fuel ih =>
    intro points hne hfuel hrect
    by_cases hle : points.length ≤ leafSize
    · rw [innerNewF_succ_le D leafSize fuel points hle]
      match points, hne with
      | p0 :: rest, _ =>
        have hdim0 : p0.length = dim := hrect p0 (List.mem_cons_self _ _)
        have hcen : (centroid p0.length (p0 :: rest)).length = dim := by
          rw [hdim0]
          exact centroid_length dim _ hrect
        exact WF.leaf hcen hrect
          (fun p hp => calcRadius_bound D _ _ (by simp) hp)
    · rw [innerNewF_succ_gt D leafSize fuel points hle]
      have h2 : 2 ≤ points.length := by omega
      have hlen := partition_lengths points h2
      have hlne := partition_left_ne_nil points
      have hrne := partition_right_ne_nil points h2
      have hmeml : ∀ p ∈ (partition points).1, p.length = dim := fun p hp =>
        hrect p (partition_mem points h2 (List.mem_append.mpr (Or.inl hp)))
      have hmemr : ∀ p ∈ (partition points).2.2, p.length = dim := fun p hp =>
        hrect p (partition_mem points h2 (List.mem_append.mpr (Or.inr hp)))
      have hmed : ((partition points).2.1).length = dim := by
        rw [partition_median_eq]
        exact hrect _ (partMedian_mem points (by omega))
      refine WF.branch hmed ?_ (ih _ hlne (by omega) hmeml) (ih _ hrne (by omega) hmemr)
      intro p hp
      have hperm := ((contained_innerNewF D leafSize hls fuel (partition points).1
        (by omega)).append (contained_innerNewF D leafSize hls fuel
          (partition points).2.2 (by omega)))
      have hp' : p ∈ (partition points).1 ++ (partition points).2.2 := hperm.subset hp
      have happne : (partition points).1 ++ (partition points).2.2 ≠ [] := by
        intro h
        exact hlne (List.append_eq_nil.mp h).1
      exact calcRadius_bound D _ _ happne hp'

theorem contained_innerNew (D : Distance) (leafSize : ℕ) (hls : 1 ≤ leafSize)
    (points : List Pt) : (contained (innerNew D leafSize points)).Perm points :=
  contained_innerNewF D leafSize hls points.length points le_rfl

theorem innerNew_WF (D : Distance) (dim leafSize : ℕ) (hls : 1 ≤ leafSize)
    (points : List Pt) (hne : points ≠ []) (hrect : ∀ p ∈ points, p.length = dim) :
    WF D dim (innerNew D leafSize points) :=
  innerNewF_WF D dim leafSize hls points.length points hne le_rfl hrect

/-! ## The index façade and the query engine -/

/-- Construction errors (`BuildError` in `linfa-nn`). -/
inductive BuildError where
  | ZeroDimension
deriving DecidableEq

/-- Query errors (`NnError` in `linfa-nn`). -/
inductive NnError where
  | WrongDimension
deriving DecidableEq

/-- Outcome of a query: a panic (an `unwrap` of `None` in the source), an
error, or a result list. -/
inductive NnResult where
  | panic
  | error (e : NnError)
  | ok (pts : List Pt)
deriving DecidableEq

/-- The `BallTree` index: root node, distance function, dimensionality and
total point count. -/
structure BallTree where
  tree : BallTreeInner
  distFn : Distance
  dim : ℕ
  len : ℕ

/-- `BallTree::new(batch, leaf_size, dist_fn)`.  The batch (an `Array2`) is
its list of rows plus its column count `dim` (which an `Array2` carries even
with zero rows). -/
def BallTree.new (dim : ℕ) (batch : List Pt) (leafSize : ℕ) (distFn : Distance) :
    Except BuildError BallTree :=
  if dim = 0 then .error .ZeroDimension
  else .ok ⟨innerNew distFn leafSize batch, distFn, dim, batch.length⟩

/-- The index a successful `BallTree::new` returns. -/
def buildTree (D : Distance) (dim : ℕ) (batch : List Pt) (leafSize : ℕ) : BallTree :=
  ⟨innerNew D leafSize batch, D, dim, batch.length⟩

theorem BallTree.new_ok (D : Distance) (dim : ℕ) (batch : List Pt) (leafSize : ℕ)
    (hdim : dim ≠ 0) :
    BallTree.new dim batch leafSize D = .ok (buildTree D dim batch leafSize) := by
  rw [BallTree.new, if_neg hdim]
  rfl

/-! ### Binary heaps as key-sorted lists -/

/-- Ordered insertion by a rational key: the sorted-list model of
`BinaryHeap::push` (for both the min-queue and the bounded max-heap). -/
def insKey {α : Type} (key : α → ℚ) (a : α) : List α → List α
  | [] => [a]
  | b :: l => if key a ≤ key b then a :: b :: l else b :: insKey key a l

theorem insKey_perm {α : Type} (key : α → ℚ) (a : α) (l : List α) :
    (insKey key a l).Perm (a :: l) := by
  induction l with
  | nil => exact List.Perm.refl _
  | cons b bs ih =>
    rw [insKey]
    split
    · exact List.Perm.refl _
    · exact (ih.cons b).trans (List.Perm.swap a b bs)

theorem insKey_length {α : Type} (key : α → ℚ) (a : α) (l : List α) :
    (insKey key a l).length = l.length + 1 := by
  have := (insKey_perm key a l).length_eq
  simpa using this

theorem insKey_mem {α : Type} {key : α → ℚ} {a x : α} {l : List α} :
    x ∈ insKey key a l ↔ x = a ∨ x ∈ l := by
  rw [(insKey_perm key a l).mem_iff, List.mem_cons]

theorem insKey_sorted {α : Type} (key : α → ℚ) (a : α) (l : List α)
    (hl : l.Pairwise fun x y => key x ≤ key y) :
    (insKey key a l).Pairwise fun x y => key x ≤ key y := by
  induction l with
  | nil => simp [insKey]
  | cons b bs ih =>
    rw [insKey]
    rw [List.pairwise_cons] at hl
    split
    · rename_i hab
      rw [List.pairwise_cons]
      refine ⟨?_, List.pairwise_cons.mpr hl⟩
      intro x hx
      rcases List.mem_cons.mp hx with h' | h'
      · rw [h']; exact hab
      · exact le_trans hab (hl.1 x h')
    · rename_i hab
      rw [List.pairwise_cons]
      refine ⟨?_, ih hl.2⟩
      intro x hx
      rcases insKey_mem.mp hx with h' | h'
      · rw [h']; exact le_of_not_le hab
      · exact hl.1 x h'

/-- Total subtree size held in the queue; bounds the number of remaining
loop iterations. -/
def sumSize (queue : List (ℚ × BallTreeInner)) : ℕ :=
  (queue.map fun e => treeSize e.2).sum

theorem sumSize_insKey (e : ℚ × BallTreeInner) (queue : List (ℚ × BallTreeInner)) :
    sumSize (insKey Prod.fst e queue) = treeSize e.2 + sumSize queue := by
  have hperm := (insKey_perm Prod.fst e queue).map fun x => treeSize x.2
  rw [sumSize, sumSize, hperm.sum_eq]
  simp

/-! ### The best-first loop of `nn_helper` -/

/-- What the loop does with a popped queue entry before examining the node:
stop, panic (`out.peek().unwrap()` on an empty result heap), or go on.  This
is the `if dist >= max_radius || (out.len() == k && dist >= out.peek().unwrap().dist)`
break condition, with the short-circuit evaluation made explicit. -/
inductive PopAction where
  | stop
  | panicNow
  | go
deriving DecidableEq

/-- The break test run on each popped entry (`d` is the popped lower bound). -/
def popAction (k : ℕ) (maxRadius : WithTop ℚ) (d : ℚ) (out : List (ℚ × Pt)) :
    PopAction :=
  if maxRadius ≤ (d : WithTop ℚ) then .stop
  else if out.length = k then
    match out.getLast? with
    | none => .panicNow
    | some w => if w.1 ≤ d then .stop else .go
  else .go

/-- The body of the `for p in points` scan of a popped `Leaf`: compute the
true reduced distance, insert qualifying points into the bounded max-heap,
evicting the worst element when the heap exceeds `k`.  `none` is the panic of
`out.peek().unwrap()` when `out.len() < k` fails with an empty heap. -/
def scanLeaf (D : Distance) (q : Pt) (k : ℕ) (maxRadius : WithTop ℚ) :
    List Pt → List (ℚ × Pt) → Option (List (ℚ × Pt))
  | [], out => some out
  | p :: ps, out =>
    let dist := D.rdistance q p
    if (dist : WithTop ℚ) < maxRadius then
      if out.length < k then
        scanLeaf D q k maxRadius ps
          (let out' := insKey Prod.fst (dist, p) out
           if k < out'.length then out'.dropLast else out')
      else
        match out.getLast? with
        | none => none
        | some w =>
          if w.1 > dist then
            scanLeaf D q k maxRadius ps
              (let out' := insKey Prod.fst (dist, p) out
               if k < out'.length then out'.dropLast else out')
          else scanLeaf D q k maxRadius ps out
    else scanLeaf D q k maxRadius ps out

/-- Push a child node into the queue if its lower bound is within the
max-distance limit (`if dl <= max_radius { queue.push(...) }`). -/
def pushIf (D : Distance) (q : Pt) (maxRadius : WithTop ℚ) (child : BallTreeInner)
    (queue : List (ℚ × BallTreeInner)) : List (ℚ × BallTreeInner) :=
  if (nodeRdist D child q : WithTop ℚ) ≤ maxRadius then
    insKey Prod.fst (nodeRdist D child q, child) queue
  else queue

/-- The `while let Some(...) = queue.pop()` loop of `nn_helper`, with fuel
(each iteration strictly decreases the total subtree size in the queue, so
`sumSize queue + 1` fuel always suffices; `none` reports a panic). -/
def nnLoopF (D : Distance) (q : Pt) (k : ℕ) (maxRadius : WithTop ℚ) :
    ℕ → List (ℚ × BallTreeInner) → List (ℚ × Pt) → Option (List (ℚ × Pt))
  | 0, _, _ => none
  | _ + 1, [], out => some out
  | fuel + 1, (d, n) :: rest, out =>
    match popAction k maxRadius d out with
    | .stop => some out
    | .panicNow => none
    | .go =>
      match n with
      | .leaf _ _ pts =>
        match scanLeaf D q k maxRadius pts out with
        | none => none
        | some out' => nnLoopF D q k maxRadius fuel rest out'
      | .branch _ _ l rt =>
        nnLoopF D q k maxRadius fuel
          (pushIf D q maxRadius rt (pushIf D q maxRadius l rest)) out

/-- `BallTree::nn_helper(point, k, max_radius)`. -/
def nnHelper (T : BallTree) (point : Pt) (k : ℕ) (maxRadius : WithTop ℚ) :
    NnResult :=
  if T.dim ≠ point.length then .error .WrongDimension
  else if T.len = 0 then .ok []
  else
    match nnLoopF T.distFn point k maxRadius (treeSize T.tree + 1)
        [(nodeRdist T.distFn T.tree point, T.tree)] [] with
    | none => .panic
    | some out => .ok (out.map Prod.snd)

/-- `BallTree::k_nearest(point, k)`: the helper with an infinite max radius. -/
def BallTree.kNearest (T : BallTree) (point : Pt) (k : ℕ) : NnResult :=
  nnHelper T point k ⊤

/-- `BallTree::within_range(point, range)`: the helper with `k = len` and the
range converted to reduced-distance units. -/
def BallTree.withinRange (T : BallTree) (point : Pt) (range : ℚ) : NnResult :=
  nnHelper T point T.len ((T.distFn.dist_to_rdist range : ℚ) : WithTop ℚ)

/-! ## Loop invariants of the query engine -/

/-- The multiset of points currently held by the result heap. -/
def outPts (out : List (ℚ × Pt)) : Multiset Pt := (out.map Prod.snd : List Pt)

/-- The multiset of points contained in subtrees currently on the queue. -/
def queuePts (queue : List (ℚ × BallTreeInner)) : Multiset Pt :=
  (queue.map fun e => ((contained e.2 : List Pt) : Multiset Pt)).sum

/-- A point qualifies when its true reduced distance to the query is strictly
below the max-distance limit — the acceptance test of the leaf scan. -/
def qualP (D : Distance) (q : Pt) (maxRadius : WithTop ℚ) (p : Pt) : Prop :=
  ((D.rdistance q p : ℚ) : WithTop ℚ) < maxRadius

instance (D : Distance) (q : Pt) (maxRadius : WithTop ℚ) :
    DecidablePred (qualP D q maxRadius) := fun p => by
  unfold qualP; infer_instance

/-- Invariant of the bounded max-heap `out`: sorted ascending by key, every
entry is a point at its true reduced distance which qualifies, and the heap
never exceeds `k` entries. -/
structure OutInv (D : Distance) (q : Pt) (k : ℕ) (maxRadius : WithTop ℚ)
    (out : List (ℚ × Pt)) : Prop where
  sorted : out.Pairwise fun a b => a.1 ≤ b.1
  keys : ∀ e ∈ out, e.1 = D.rdistance q e.2 ∧ ((e.1 : ℚ) : WithTop ℚ) < maxRadius
  len_le : out.length ≤ k

theorem outPts_insKey (e : ℚ × Pt) (out : List (ℚ × Pt)) :
    outPts (insKey Prod.fst e out) = e.2 ::ₘ outPts out := by
  have hperm := (insKey_perm Prod.fst e out).map Prod.snd
  rw [outPts, outPts]
  exact_mod_cast Multiset.coe_eq_coe.mpr hperm

theorem outPts_dropLast_le (out : List (ℚ × Pt)) :
    outPts out.dropLast ≤ outPts out := by
  rw [outPts, outPts]
  exact Multiset.coe_le.mpr ((out.dropLast_sublist.map Prod.snd).subperm)

theorem outPts_card (out : List (ℚ × Pt)) :
    Multiset.card (outPts out) = out.length := by
  rw [outPts]
  simp

theorem outPts_qual {D : Distance} {q : Pt} {k : ℕ} {maxRadius : WithTop ℚ}
    {out : List (ℚ × Pt)} (h : OutInv D q k maxRadius out) :
    ∀ p ∈ outPts out, qualP D q maxRadius p := by
  intro p hp
  rw [outPts, Multiset.mem_coe, List.mem_map] at hp
  obtain ⟨e, he, hep⟩ := hp
  obtain ⟨hk1, hk2⟩ := h.keys e he
  rw [qualP, ← hep, ← hk1]
  exact hk2

/-- One step of the bounded-heap insertion: push, then evict the worst if the
heap exceeds `k` — as run by the leaf scan for a qualifying point. -/
theorem out_step {D : Distance} {q : Pt} {k : ℕ} {maxRadius : WithTop ℚ}
    {out : List (ℚ × Pt)} (h : OutInv D q k maxRadius out) {p : Pt}
    (hql : ((D.rdistance q p : ℚ) : WithTop ℚ) < maxRadius) :
    OutInv D q k maxRadius
        (if k < (insKey Prod.fst (D.rdistance q p, p) out).length then
          (insKey Prod.fst (D.rdistance q p, p) out).dropLast
        else insKey Prod.fst (D.rdistance q p, p) out) ∧
      outPts
        (if k < (insKey Prod.fst (D.rdistance q p, p) out).length then
          (insKey Prod.fst (D.rdistance q p, p) out).dropLast
        else insKey Prod.fst (D.rdistance q p, p) out) ≤ p ::ₘ outPts out := by
  have hsorted := insKey_sorted Prod.fst (D.rdistance q p, p) out h.sorted
  have hkeys : ∀ e ∈ insKey Prod.fst (D.rdistance q p, p) out,
      e.1 = D.rdistance q e.2 ∧ ((e.1 : ℚ) : WithTop ℚ) < maxRadius := by
    intro e he
    rcases insKey_mem.mp he with h' | h'
    · rw [h']; exact ⟨rfl, hql⟩
    · exact h.keys e h'
  have hlen := insKey_length Prod.fst (D.rdistance q p, p) out
  have hout1 := outPts_insKey (D.rdistance q p, p) out
  split
  · rename_i hgt
    refine ⟨⟨List.Pairwise.sublist (List.dropLast_sublist _) hsorted, ?_, ?_⟩, ?_⟩
    · intro e he
      exact hkeys e ((List.dropLast_sublist _).subset he)
    · have hkk := h.len_le
      rw [List.length_dropLast, hlen]
      omega
    · exact le_trans (outPts_dropLast_le _) (le_of_eq hout1)
  · rename_i hle
    refine ⟨⟨hsorted, hkeys, by omega⟩, le_of_eq hout1⟩

theorem scanLeaf_cons (D : Distance) (q : Pt) (k : ℕ) (maxRadius : WithTop ℚ)
    (p : Pt) (ps : List Pt) (out : List (ℚ × Pt)) :
    scanLeaf D q k maxRadius (p :: ps) out =
      if ((D.rdistance q p : ℚ) : WithTop ℚ) < maxRadius then
        if out.length < k then
          scanLeaf D q k maxRadius ps
            (if k < (insKey Prod.fst (D.rdistance q p, p) out).length then
              (insKey Prod.fst (D.rdistance q p, p) out).dropLast
            else insKey Prod.fst (D.rdistance q p, p) out)
        else
          match out.getLast? with
          | none => none
          | some w =>
            if w.1 > D.rdistance q p then
              scanLeaf D q k maxRadius ps
                (if k < (insKey Prod.fst (D.rdistance q p, p) out).length then
                  (insKey Prod.fst (D.rdistance q p, p) out).dropLast
                else insKey Prod.fst (D.rdistance q p, p) out)
            else scanLeaf D q k maxRadius ps out
      else scanLeaf D q k maxRadius ps out := rfl

/-- Soundness of the leaf scan: if it returns (no panic), the heap invariant
is preserved and it only ever adds scanned points. -/
theorem scanLeaf_sound (D : Distance) (q : Pt) (k : ℕ) (maxRadius : WithTop ℚ) :
    ∀ (pts : List Pt) (out out' : List (ℚ × Pt)), OutInv D q k maxRadius out →
      scanLeaf D q k maxRadius pts out = some out' →
      OutInv D q k maxRadius out' ∧ outPts out' ≤ outPts out + (pts : Multiset Pt) := by
  intro pts
  induction pts with
  | nil =>
    intro out out' h hscan
    rw [scanLeaf] at hscan
    cases hscan
    exact ⟨h, by simp⟩
  | cons p ps ih =>
    intro out out' h hscan
    rw [scanLeaf_cons] at hscan
    have hcons : (outPts out + ((p :: ps : List Pt) : Multiset Pt)) =
        p ::ₘ (outPts out + (ps : Multiset Pt)) := by
      rw [← Multiset.cons_coe, Multiset.add_cons]
    split at hscan
    · rename_i hql
      split at hscan
      · rename_i hlen
        obtain ⟨hinv1, hle1⟩ := out_step h hql
        obtain ⟨hinv2, hle2⟩ := ih _ _ hinv1 hscan
        refine ⟨hinv2, ?_⟩
        rw [hcons]
        calc outPts out' ≤ outPts _ + (ps : Multiset Pt) := hle2
          _ ≤ (p ::ₘ outPts out) + (ps : Multiset Pt) := add_le_add_right hle1 _
          _ = p ::ₘ (outPts out + (ps : Multiset Pt)) := by rw [Multiset.cons_add]
      · split at hscan
        · cases hscan
        · rename_i w hw
          split at hscan
          · obtain ⟨hinv1, hle1⟩ := out_step h hql
            obtain ⟨hinv2, hle2⟩ := ih _ _ hinv1 hscan
            refine ⟨hinv2, ?_⟩
            rw [hcons]
            calc outPts out' ≤ outPts _ + (ps : Multiset Pt) := hle2
              _ ≤ (p ::ₘ outPts out) + (ps : Multiset Pt) := add_le_add_right hle1 _
              _ = p ::ₘ (outPts out + (ps : Multiset Pt)) := by rw [Multiset.cons_add]
          · obtain ⟨hinv2, hle2⟩ := ih _ _ h hscan
            refine ⟨hinv2, ?_⟩
            rw [hcons]
            exact le_trans hle2 (Multiset.le_cons_self _ _)
    · obtain ⟨hinv2, hle2⟩ := ih _ _ h hscan
      refine ⟨hinv2, ?_⟩
      rw [hcons]
      exact le_trans hle2 (Multiset.le_cons_self _ _)

/-- Completeness of the leaf scan when the heap has room for every scanned
point (the `k = len` regime of `within_range` / full `k_nearest`): no panic,
and the heap gains exactly the qualifying scanned points. -/
theorem scanLeaf_complete (D : Distance) (q : Pt) (k : ℕ) (maxRadius : WithTop ℚ) :
    ∀ (pts : List Pt) (out : List (ℚ × Pt)), OutInv D q k maxRadius out →
      out.length + pts.length ≤ k →
      ∃ out', scanLeaf D q k maxRadius pts out = some out' ∧
        OutInv D q k maxRadius out' ∧
        outPts out' = outPts out + Multiset.filter (qualP D q maxRadius) (pts : Multiset Pt) := by
  intro pts
  induction pts with
  | nil =>
    intro out h _
    exact ⟨out, rfl, h, by simp⟩
  | cons p ps ih =>
    intro out h hroom
    rw [scanLeaf_cons]
    rw [List.length_cons] at hroom
    have hlen : out.length < k := by omega
    have hfilcons : Multiset.filter (qualP D q maxRadius) ((p :: ps : List Pt) : Multiset Pt) =
        if qualP D q maxRadius p then
          p ::ₘ Multiset.filter (qualP D q maxRadius) (ps : Multiset Pt)
        else Multiset.filter (qualP D q maxRadius) (ps : Multiset Pt) := by
      rw [← Multiset.cons_coe, Multiset.filter_cons]
      split <;> simp
    by_cases hql : ((D.rdistance q p : ℚ) : WithTop ℚ) < maxRadius
    · rw [if_pos hql, if_pos hlen]
      have hnotrim : ¬ k < (insKey Prod.fst (D.rdistance q p, p) out).length := by
        rw [insKey_length]
        omega
      rw [if_neg hnotrim]
      have hsorted := insKey_sorted Prod.fst (D.rdistance q p, p) out h.sorted
      have hkeys : ∀ e ∈ insKey Prod.fst (D.rdistance q p, p) out,
          e.1 = D.rdistance q e.2 ∧ ((e.1 : ℚ) : WithTop ℚ) < maxRadius := by
        intro e he
        rcases insKey_mem.mp he with h' | h'
        · rw [h']; exact ⟨rfl, hql⟩
        · exact h.keys e h'
      have hinv1 : OutInv D q k maxRadius (insKey Prod.fst (D.rdistance q p, p) out) :=
        ⟨hsorted, hkeys, by rw [insKey_length]; omega⟩
      obtain ⟨out', hscan, hinv2, heq⟩ := ih _ hinv1 (by rw [insKey_length]; omega)
      refine ⟨out', hscan, hinv2, ?_⟩
      rw [heq, outPts_insKey, hfilcons, if_pos (show qualP D q maxRadius p from hql),
        Multiset.cons_add, Multiset.add_cons]
    · rw [if_neg hql]
      obtain ⟨out', hscan, hinv2, heq⟩ := ih _ h (by omega)
      refine ⟨out', hscan, hinv2, ?_⟩
      rw [heq, hfilcons, if_neg (show ¬ qualP D q maxRadius p from hql)]

/-! ### Queue plumbing -/

theorem queuePts_nil : queuePts [] = 0 := rfl

theorem queuePts_cons (e : ℚ × BallTreeInner) (rest : List (ℚ × BallTreeInner)) :
    queuePts (e :: rest) = ((contained e.2 : List Pt) : Multiset Pt) + queuePts rest := by
  rw [queuePts, queuePts]
  simp

theorem queuePts_insKey (e : ℚ × BallTreeInner) (l : List (ℚ × BallTreeInner)) :
    queuePts (insKey Prod.fst e l) =
      ((contained e.2 : List Pt) : Multiset Pt) + queuePts l := by
  have hperm := (insKey_perm Prod.fst e l).map fun x => ((contained x.2 : List Pt) : Multiset Pt)
  rw [queuePts, queuePts, hperm.sum_eq]
  simp

theorem mem_queuePts {p : Pt} {queue : List (ℚ × BallTreeInner)}
    (hp : p ∈ queuePts queue) : ∃ e ∈ queue, p ∈ contained e.2 := by
  induction queue with
  | nil => cases hp
  | cons e rest ih =>
    rw [queuePts_cons, Multiset.mem_add] at hp
    rcases hp with h' | h'
    · exact ⟨e, List.mem_cons_self _ _, by simpa using h'⟩
    · obtain ⟨f, hf, hpf⟩ := ih h'
      exact ⟨f, List.mem_cons_of_mem _ hf, hpf⟩

theorem queuePts_pushIf_le (D : Distance) (q : Pt) (maxRadius : WithTop ℚ)
    (c : BallTreeInner) (l : List (ℚ × BallTreeInner)) :
    queuePts (pushIf D q maxRadius c l) ≤
      ((contained c : List Pt) : Multiset Pt) + queuePts l := by
  rw [pushIf]
  split
  · rw [queuePts_insKey]
  · exact le_add_self

theorem mem_pushIf {D : Distance} {q : Pt} {maxRadius : WithTop ℚ}
    {c : BallTreeInner} {l : List (ℚ × BallTreeInner)} {e : ℚ × BallTreeInner}
    (he : e ∈ pushIf D q maxRadius c l) :
    e = (nodeRdist D c q, c) ∨ e ∈ l := by
  rw [pushIf] at he
  split at he
  · exact insKey_mem.mp he
  · exact Or.inr he

theorem sorted_pushIf (D : Distance) (q : Pt) (maxRadius : WithTop ℚ)
    (c : BallTreeInner) (l : List (ℚ × BallTreeInner))
    (hl : l.Pairwise fun a b => a.1 ≤ b.1) :
    (pushIf D q maxRadius c l).Pairwise fun a b => a.1 ≤ b.1 := by
  rw [pushIf]
  split
  · exact insKey_sorted Prod.fst _ l hl
  · exact hl

theorem sumSize_pushIf_le (D : Distance) (q : Pt) (maxRadius : WithTop ℚ)
    (c : BallTreeInner) (l : List (ℚ × BallTreeInner)) :
    sumSize (pushIf D q maxRadius c l) ≤ treeSize c + sumSize l := by
  rw [pushIf]
  split
  · rw [sumSize_insKey]
  · omega

/-- A child whose lower bound exceeds the max radius contains no qualifying
point; a pushed child keeps its contribution.  Together: pushing never loses
qualifying points. -/
theorem pushIf_covered {D : Distance} {dim : ℕ} {q : Pt} (maxRadius : WithTop ℚ)
    {c : BallTreeInner} (l : List (ℚ × BallTreeInner))
    (hwf : WF D dim c) (hq : q.length = dim) :
    queuePts l + Multiset.filter (qualP D q maxRadius) ((contained c : List Pt) : Multiset Pt) ≤
      queuePts (pushIf D q maxRadius c l) := by
  rw [pushIf]
  split
  · rw [queuePts_insKey]
    rw [add_comm (queuePts l)]
    exact add_le_add (Multiset.filter_le _ _) le_rfl
  · rename_i hdrop
    have hnone : Multiset.filter (qualP D q maxRadius)
        ((contained c : List Pt) : Multiset Pt) = 0 := by
      rw [Multiset.filter_eq_nil]
      intro p hp
      rw [Multiset.mem_coe] at hp
      have hball := nodeRdist_le hwf hq hp
      rw [qualP, not_lt]
      push_neg at hdrop
      calc maxRadius ≤ ((nodeRdist D c q : ℚ) : WithTop ℚ) := le_of_lt hdrop
        _ ≤ ((D.rdistance q p : ℚ) : WithTop ℚ) := WithTop.coe_le_coe.mpr hball
    rw [hnone, add_zero]

theorem WF.branch_left {D : Distance} {dim : ℕ} {c : Pt} {r : ℚ}
    {l rt : BallTreeInner} (h : WF D dim (.branch c r l rt)) : WF D dim l := by
  cases h with
  | branch _ _ hl _ => exact hl

theorem WF.branch_right {D : Distance} {dim : ℕ} {c : Pt} {r : ℚ}
    {l rt : BallTreeInner} (h : WF D dim (.branch c r l rt)) : WF D dim rt := by
  cases h with
  | branch _ _ _ hr => exact hr

/-- Full loop invariant: heap invariant, queue keys are the nodes' lower
bounds over well-formed subtrees, queue sorted ascending (min-heap model),
and the points in the heap and the queue together never duplicate points of
the index. -/
structure LoopInv (D : Distance) (dim : ℕ) (q : Pt) (k : ℕ) (maxRadius : WithTop ℚ)
    (allM : Multiset Pt) (queue : List (ℚ × BallTreeInner))
    (out : List (ℚ × Pt)) : Prop where
  outInv : OutInv D q k maxRadius out
  q_keys : ∀ e ∈ queue, e.1 = nodeRdist D e.2 q ∧ WF D dim e.2
  q_sorted : queue.Pairwise fun a b => a.1 ≤ b.1
  avail : outPts out + queuePts queue ≤ allM

/-- Coverage: every qualifying point of the index is either already in the
heap or still contained in some queued subtree. -/
def Covered (D : Distance) (q : Pt) (maxRadius : WithTop ℚ) (allM : Multiset Pt)
    (queue : List (ℚ × BallTreeInner)) (out : List (ℚ × Pt)) : Prop :=
  Multiset.filter (qualP D q maxRadius) allM ≤ outPts out + queuePts queue

theorem out_final_eq {D : Distance} {q : Pt} {k : ℕ} {maxRadius : WithTop ℚ}
    {allM : Multiset Pt} {out : List (ℚ × Pt)} (h : OutInv D q k maxRadius out)
    (hle : outPts out ≤ allM)
    (hcov : Multiset.filter (qualP D q maxRadius) allM ≤ outPts out) :
    outPts out = Multiset.filter (qualP D q maxRadius) allM :=
  le_antisymm (Multiset.le_filter.mpr ⟨hle, outPts_qual h⟩) hcov

theorem popAction_stop_iff (k : ℕ) (maxRadius : WithTop ℚ) (d : ℚ)
    (out : List (ℚ × Pt)) :
    popAction k maxRadius d out = .stop ↔
      (maxRadius ≤ (d : WithTop ℚ) ∨
        (out.length = k ∧ ∃ w, out.getLast? = some w ∧ w.1 ≤ d)) := by
  rw [popAction]
  by_cases h1 : maxRadius ≤ (d : WithTop ℚ)
  · rw [if_pos h1]
    exact iff_of_true rfl (Or.inl h1)
  · rw [if_neg h1]
    by_cases h2 : out.length = k
    · rw [if_pos h2]
      cases hgl : out.getLast? with
      | none =>
        show PopAction.panicNow = PopAction.stop ↔ _
        constructor
        · intro h; cases h
        · rintro (h' | ⟨_, w', hw', _⟩)
          · exact absurd h' h1
          · cases hw'
      | some w =>
        show (if w.1 ≤ d then PopAction.stop else PopAction.go) = PopAction.stop ↔ _
        by_cases hw : w.1 ≤ d
        · rw [if_pos hw]
          exact iff_of_true rfl (Or.inr ⟨h2, w, rfl, hw⟩)
        · rw [if_neg hw]
          constructor
          · intro h; cases h
          · rintro (h' | ⟨_, w', hw', hle'⟩)
            · exact absurd h' h1
            · cases hw'
              exact absurd hle' hw
    · rw [if_neg h2]
      constructor
      · intro h; cases h
      · rintro (h' | ⟨h'', _⟩)
        · exact absurd h' h1
        · exact absurd h'' h2

theorem popAction_panic {k : ℕ} {maxRadius : WithTop ℚ} {d : ℚ}
    {out : List (ℚ × Pt)} (h : popAction k maxRadius d out = .panicNow) :
    out = [] ∧ k = 0 := by
  rw [popAction] at h
  split at h
  · cases h
  · split at h
    · rename_i hlen
      split at h
      · rename_i hgl
        have : out = [] := List.getLast?_eq_none_iff.mp hgl
        exact ⟨this, by rw [← hlen, this]; rfl⟩
      · split at h <;> cases h
    · cases h

theorem nnLoopF_zero (D : Distance) (q : Pt) (k : ℕ) (maxRadius : WithTop ℚ)
    (queue : List (ℚ × BallTreeInner)) (out : List (ℚ × Pt)) :
    nnLoopF D q k maxRadius 0 queue out = none := rfl

theorem nnLoopF_succ_nil (D : Distance) (q : Pt) (k : ℕ) (maxRadius : WithTop ℚ)
    (fuel : ℕ) (out : List (ℚ × Pt)) :
    nnLoopF D q k maxRadius (fuel + 1) [] out = some out := rfl

theorem nnLoopF_succ_cons (D : Distance) (q : Pt) (k : ℕ) (maxRadius : WithTop ℚ)
    (fuel : ℕ) (d : ℚ) (n : BallTreeInner) (rest : List (ℚ × BallTreeInner))
    (out : List (ℚ × Pt)) :
    nnLoopF D q k maxRadius (fuel + 1) ((d, n) :: rest) out =
      match popAction k maxRadius d out with
      | .stop => some out
      | .panicNow => none
      | .go =>
        match n with
        | .leaf _ _ pts =>
          match scanLeaf D q k maxRadius pts out with
          | none => none
          | some out' => nnLoopF D q k maxRadius fuel rest out'
        | .branch _ _ l rt =>
          nnLoopF D q k maxRadius fuel
            (pushIf D q maxRadius rt (pushIf D q maxRadius l rest)) out := rfl

/-- Soundness of the best-first loop: whenever it returns a heap, that heap
satisfies the heap invariant and holds a sub-multiset of the index points. -/
theorem nnLoopF_sound (D : Distance) (dim : ℕ) (q : Pt) (k : ℕ)
    (maxRadius : WithTop ℚ) (allM : Multiset Pt) :
    ∀ (fuel : ℕ) (queue : List (ℚ × BallTreeInner)) (out res : List (ℚ × Pt)),
      LoopInv D dim q k maxRadius allM queue out →
      nnLoopF D q k maxRadius fuel queue out = some res →
      OutInv D q k maxRadius res ∧ outPts res ≤ allM := by
  intro fuel
  induction fuel with
  | zero =>
    intro queue out res _ hres
    rw [nnLoopF_zero] at hres
    cases hres
  | succ fuel ih =>
    intro queue out res hinv hres
    cases queue with
    | nil =>
      rw [nnLoopF_succ_nil] at hres
      cases hres
      refine ⟨hinv.outInv, ?_⟩
      have := hinv.avail
      rw [queuePts_nil, add_zero] at this
      exact this
    | cons e rest =>
      obtain ⟨d, n⟩ := e
      rw [nnLoopF_succ_cons] at hres
      split at hres
      · -- break
        cases hres
        exact ⟨hinv.outInv, le_trans (self_le_add_right _ _) hinv.avail⟩
      · cases hres
      · -- go on
        split at hres
        · -- Leaf: scan, then continue with the rest of the queue
          rename_i c r pts
          split at hres
          · cases hres
          · rename_i out1 hscan
            obtain ⟨hinv1, hle1⟩ := scanLeaf_sound D q k maxRadius pts out out1
              hinv.outInv hscan
            refine ih rest out1 res
              ⟨hinv1, fun e he => hinv.q_keys e (List.mem_cons_of_mem _ he),
                hinv.q_sorted.of_cons, ?_⟩ hres
            calc outPts out1 + queuePts rest
                ≤ (outPts out + (pts : Multiset Pt)) + queuePts rest :=
                  add_le_add_right hle1 _
              _ = outPts out + queuePts ((d, BallTreeInner.leaf c r pts) :: rest) := by
                  rw [queuePts_cons, add_assoc]
                  rfl
              _ ≤ allM := hinv.avail
        · -- Branch: push the two children, keep the heap
          rename_i c r l rt
          have hwf : WF D dim (.branch c r l rt) :=
            (hinv.q_keys (d, .branch c r l rt) (List.mem_cons_self _ _)).2
          refine ih _ out res ⟨hinv.outInv, ?_, ?_, ?_⟩ hres
          · intro e he
            rcases mem_pushIf he with h' | h'
            · rw [h']; exact ⟨rfl, hwf.branch_right⟩
            · rcases mem_pushIf h' with h'' | h''
              · rw [h'']; exact ⟨rfl, hwf.branch_left⟩
              · exact hinv.q_keys e (List.mem_cons_of_mem _ h'')
          · exact sorted_pushIf D q maxRadius rt _
              (sorted_pushIf D q maxRadius l rest hinv.q_sorted.of_cons)
          · calc outPts out + queuePts (pushIf D q maxRadius rt (pushIf D q maxRadius l rest))
                ≤ outPts out + (((contained rt : List Pt) : Multiset Pt) +
                    (((contained l : List Pt) : Multiset Pt) + queuePts rest)) := by
                  refine add_le_add_left ?_ _
                  refine le_trans (queuePts_pushIf_le D q maxRadius rt _) ?_
                  exact add_le_add_left (queuePts_pushIf_le D q maxRadius l rest) _
              _ = outPts out + queuePts ((d, BallTreeInner.branch c r l rt) :: rest) := by
                  rw [queuePts_cons]
                  have hcc : ((contained (BallTreeInner.branch c r l rt) : List Pt) : Multiset Pt) =
                      ((contained l : List Pt) : Multiset Pt) +
                        ((contained rt : List Pt) : Multiset Pt) := by
                    show ((contained l ++ contained rt : List Pt) : Multiset Pt) = _
                    rw [Multiset.coe_add]
                  rw [hcc]
                  abel
              _ ≤ allM := hinv.avail

theorem filter_qual_idem (D : Distance) (q : Pt) (maxRadius : WithTop ℚ)
    (s : Multiset Pt) :
    Multiset.filter (qualP D q maxRadius) (Multiset.filter (qualP D q maxRadius) s) =
      Multiset.filter (qualP D q maxRadius) s := by
  rw [Multiset.filter_filter]
  exact Multiset.filter_congr fun x _ => ⟨fun h => h.1, fun h => ⟨h, h⟩⟩

/-- Completeness of the best-first loop in the `k = |index|` regime (range
queries and full k-NN): no panic, and the final heap holds exactly the
qualifying points of the index. -/
theorem nnLoopF_complete (D : Distance) (dim : ℕ) (q : Pt) (k : ℕ)
    (maxRadius : WithTop ℚ) (allM : Multiset Pt) (hq : q.length = dim)
    (hk : 0 < k) (hcard : Multiset.card allM = k) :
    ∀ (fuel : ℕ) (queue : List (ℚ × BallTreeInner)) (out : List (ℚ × Pt)),
      sumSize queue < fuel →
      LoopInv D dim q k maxRadius allM queue out →
      Covered D q maxRadius allM queue out →
      ∃ res, nnLoopF D q k maxRadius fuel queue out = some res ∧
        OutInv D q k maxRadius res ∧
        outPts res = Multiset.filter (qualP D q maxRadius) allM := by
  intro fuel
  induction fuel with
  | zero =>
    intro queue out hfuel _ _
    omega
  | succ fuel ih =>
    intro queue out hfuel hinv hcov
    cases queue with
    | nil =>
      refine ⟨out, nnLoopF_succ_nil D q k maxRadius fuel out, hinv.outInv, ?_⟩
      have havail := hinv.avail
      rw [queuePts_nil, add_zero] at havail
      have hcov' : Multiset.filter (qualP D q maxRadius) allM ≤ outPts out := by
        have := hcov
        rw [Covered, queuePts_nil, add_zero] at this
        exact this
      exact out_final_eq hinv.outInv havail hcov'
    | cons e rest =>
      obtain ⟨d, n⟩ := e
      rw [nnLoopF_succ_cons]
      have houtle : outPts out ≤ allM := le_trans (self_le_add_right _ _) hinv.avail
      cases hpa : popAction k maxRadius d out with
      | panicNow =>
        obtain ⟨_, hk0⟩ := popAction_panic hpa
        omega
      | stop =>
        refine ⟨out, rfl, hinv.outInv, ?_⟩
        rcases (popAction_stop_iff k maxRadius d out).mp hpa with hstop | ⟨hlen, _⟩
        · have hqueue0 : Multiset.filter (qualP D q maxRadius)
              (queuePts ((d, n) :: rest)) = 0 := by
            rw [Multiset.filter_eq_nil]
            intro p hp
            obtain ⟨e, he, hpe⟩ := mem_queuePts hp
            obtain ⟨hek, hewf⟩ := hinv.q_keys e he
            have hd_le : d ≤ e.1 := by
              rcases List.mem_cons.mp he with h' | h'
              · rw [h']
              · exact (List.pairwise_cons.mp hinv.q_sorted).1 e h'
            have hball : e.1 ≤ D.rdistance q p := by
              rw [hek]
              exact nodeRdist_le hewf hq hpe
            rw [qualP, not_lt]
            calc maxRadius ≤ ((d : ℚ) : WithTop ℚ) := hstop
              _ ≤ ((D.rdistance q p : ℚ) : WithTop ℚ) :=
                  WithTop.coe_le_coe.mpr (le_trans hd_le hball)
          have hstep := Multiset.filter_le_filter (qualP D q maxRadius) hcov
          rw [Multiset.filter_add, hqueue0, add_zero, filter_qual_idem] at hstep
          exact out_final_eq hinv.outInv houtle
            (le_trans hstep (Multiset.filter_le _ _))
        · have hcards : Multiset.card allM ≤ Multiset.card (outPts out) := by
            rw [outPts_card, hlen, hcard]
          have heqall : outPts out = allM := Multiset.eq_of_le_of_card_le houtle hcards
          rw [← heqall]
          exact (Multiset.filter_eq_self.mpr (outPts_qual hinv.outInv)).symm
      | go =>
        cases n with
        | leaf c r pts =>
          have hccont : ((contained (BallTreeInner.leaf c r pts) : List Pt) : Multiset Pt) =
              ((pts : List Pt) : Multiset Pt) := rfl
          have hcards := Multiset.card_le_card hinv.avail
          rw [Multiset.card_add, outPts_card, queuePts_cons, hccont, Multiset.card_add,
            Multiset.coe_card, hcard] at hcards
          have hroom : out.length + pts.length ≤ k := by omega
          obtain ⟨out1, hscan, hinv1, heq1⟩ :=
            scanLeaf_complete D q k maxRadius pts out hinv.outInv hroom
          have hfuel' : sumSize rest < fuel := by
            have hss : sumSize ((d, BallTreeInner.leaf c r pts) :: rest) =
                1 + sumSize rest := by
              rw [sumSize, List.map_cons, List.sum_cons]
              rfl
            rw [hss] at hfuel
            omega
          have havail1 : outPts out1 + queuePts rest ≤ allM := by
            rw [heq1]
            calc outPts out + Multiset.filter (qualP D q maxRadius)
                  ((pts : List Pt) : Multiset Pt) + queuePts rest
                ≤ outPts out + ((pts : List Pt) : Multiset Pt) + queuePts rest := by
                  exact add_le_add_right (add_le_add_left (Multiset.filter_le _ _) _) _
              _ = outPts out + queuePts ((d, BallTreeInner.leaf c r pts) :: rest) := by
                  rw [queuePts_cons, hccont, add_assoc]
              _ ≤ allM := hinv.avail
          have hcov1 : Covered D q maxRadius allM rest out1 := by
            rw [Covered, heq1]
            have hstep := Multiset.filter_le_filter (qualP D q maxRadius) hcov
            rw [filter_qual_idem, queuePts_cons, hccont] at hstep
            calc Multiset.filter (qualP D q maxRadius) allM
                ≤ Multiset.filter (qualP D q maxRadius)
                    (outPts out + (((pts : List Pt) : Multiset Pt) + queuePts rest)) := hstep
              _ = Multiset.filter (qualP D q maxRadius) (outPts out) +
                  (Multiset.filter (qualP D q maxRadius) ((pts : List Pt) : Multiset Pt) +
                    Multiset.filter (qualP D q maxRadius) (queuePts rest)) := by
                  rw [Multiset.filter_add, Multiset.filter_add]
              _ ≤ outPts out +
                  (Multiset.filter (qualP D q maxRadius) ((pts : List Pt) : Multiset Pt) +
                    queuePts rest) :=
                  add_le_add (Multiset.filter_le _ _)
                    (add_le_add_left (Multiset.filter_le _ _) _)
              _ = outPts out + Multiset.filter (qualP D q maxRadius)
                    ((pts : List Pt) : Multiset Pt) + queuePts rest := by
                  rw [add_assoc]
          obtain ⟨res, hres, hinvres, heqres⟩ := ih rest out1 hfuel'
            ⟨hinv1, fun e he => hinv.q_keys e (List.mem_cons_of_mem _ he),
              hinv.q_sorted.of_cons, havail1⟩ hcov1
          refine ⟨res, ?_, hinvres, heqres⟩
          show (match scanLeaf D q k maxRadius pts out with
            | none => none
            | some out' => nnLoopF D q k maxRadius fuel rest out') = some res
          rw [hscan]
          exact hres
        | branch c r l rt =>
          have hwf : WF D dim (.branch c r l rt) :=
            (hinv.q_keys (d, .branch c r l rt) (List.mem_cons_self _ _)).2
          have hccont : ((contained (BallTreeInner.branch c r l rt) : List Pt) : Multiset Pt) =
              ((contained l : List Pt) : Multiset Pt) +
                ((contained rt : List Pt) : Multiset Pt) := by
            show ((contained l ++ contained rt : List Pt) : Multiset Pt) = _
            rw [Multiset.coe_add]
          have hfuel' : sumSize (pushIf D q maxRadius rt (pushIf D q maxRadius l rest)) < fuel := by
            have h1 := sumSize_pushIf_le D q maxRadius rt (pushIf D q maxRadius l rest)
            have h2 := sumSize_pushIf_le D q maxRadius l rest
            have hss : sumSize ((d, BallTreeInner.branch c r l rt) :: rest) =
                treeSize (BallTreeInner.branch c r l rt) + sumSize rest := by
              rw [sumSize, List.map_cons, List.sum_cons]
              rfl
            have htb : treeSize (BallTreeInner.branch c r l rt) =
                1 + treeSize l + treeSize rt := rfl
            rw [hss, htb] at hfuel
            omega
          have havail' : outPts out +
              queuePts (pushIf D q maxRadius rt (pushIf D q maxRadius l rest)) ≤ allM := by
            calc outPts out + queuePts (pushIf D q maxRadius rt (pushIf D q maxRadius l rest))
                ≤ outPts out + (((contained rt : List Pt) : Multiset Pt) +
                    (((contained l : List Pt) : Multiset Pt) + queuePts rest)) := by
                  refine add_le_add_left ?_ _
                  refine le_trans (queuePts_pushIf_le D q maxRadius rt _) ?_
                  exact add_le_add_left (queuePts_pushIf_le D q maxRadius l rest) _
              _ = outPts out + queuePts ((d, BallTreeInner.branch c r l rt) :: rest) := by
                  rw [queuePts_cons, hccont]
                  abel
              _ ≤ allM := hinv.avail
          have hcov' : Covered D q maxRadius allM
              (pushIf D q maxRadius rt (pushIf D q maxRadius l rest)) out := by
            rw [Covered]
            have hstep := Multiset.filter_le_filter (qualP D q maxRadius) hcov
            rw [filter_qual_idem, queuePts_cons, hccont] at hstep
            have hpush : queuePts rest +
                Multiset.filter (qualP D q maxRadius) ((contained l : List Pt) : Multiset Pt) +
                Multiset.filter (qualP D q maxRadius) ((contained rt : List Pt) : Multiset Pt) ≤
                queuePts (pushIf D q maxRadius rt (pushIf D q maxRadius l rest)) := by
              refine le_trans ?_ (pushIf_covered maxRadius (pushIf D q maxRadius l rest)
                hwf.branch_right hq)
              exact add_le_add_right (pushIf_covered maxRadius rest hwf.branch_left hq) _
            calc Multiset.filter (qualP D q maxRadius) allM
                ≤ Multiset.filter (qualP D q maxRadius)
                    (outPts out + (((contained l : List Pt) : Multiset Pt) +
                      ((contained rt : List Pt) : Multiset Pt) + queuePts rest)) := hstep
              _ ≤ outPts out + (Multiset.filter (qualP D q maxRadius)
                    ((contained l : List Pt) : Multiset Pt) +
                  Multiset.filter (qualP D q maxRadius)
                    ((contained rt : List Pt) : Multiset Pt) + queuePts rest) := by
                  rw [Multiset.filter_add, Multiset.filter_add, Multiset.filter_add]
                  refine add_le_add (Multiset.filter_le _ _) ?_
                  exact add_le_add (add_le_add le_rfl le_rfl) (Multiset.filter_le _ _)
              _ ≤ outPts out +
                  queuePts (pushIf D q maxRadius rt (pushIf D q maxRadius l rest)) := by
                  refine add_le_add_left ?_ _
                  refine le_trans (le_of_eq ?_) hpush
                  abel
          have hqk' : ∀ e ∈ pushIf D q maxRadius rt (pushIf D q maxRadius l rest),
              e.1 = nodeRdist D e.2 q ∧ WF D dim e.2 := by
            intro e he
            rcases mem_pushIf he with h' | h'
            · rw [h']; exact ⟨rfl, hwf.branch_right⟩
            · rcases mem_pushIf h' with h'' | h''
              · rw [h'']; exact ⟨rfl, hwf.branch_left⟩
              · exact hinv.q_keys e (List.mem_cons_of_mem _ h'')
          have hqs' := sorted_pushIf D q maxRadius rt _
            (sorted_pushIf D q maxRadius l rest hinv.q_sorted.of_cons)
          obtain ⟨res, hres, hinvres, heqres⟩ := ih _ out hfuel'
            ⟨hinv.outInv, hqk', hqs', havail'⟩ hcov'
          exact ⟨res, hres, hinvres, heqres⟩

/-! ## End-to-end properties of `nn_helper` on a built index -/

theorem outInv_pairwise_dist {D : Distance} {q : Pt} {k : ℕ} {maxRadius : WithTop ℚ}
    {out : List (ℚ × Pt)} (h : OutInv D q k maxRadius out) :
    (out.map Prod.snd).Pairwise fun a b => D.distance q a ≤ D.distance q b := by
  rw [List.pairwise_map]
  refine List.Pairwise.imp_of_mem ?_ h.sorted
  intro a b ha hb hRab
  have hka := (h.keys a ha).1
  have hkb := (h.keys b hb).1
  rw [hka, hkb] at hRab
  exact D.rdist_le_iff.mp hRab

theorem contained_coe_eq (D : Distance) (leafSize : ℕ) (hls : 1 ≤ leafSize)
    (rows : List Pt) :
    ((contained (innerNew D leafSize rows) : List Pt) : Multiset Pt) =
      ((rows : List Pt) : Multiset Pt) :=
  Multiset.coe_eq_coe.mpr (contained_innerNew D leafSize hls rows)

theorem initial_inv (D : Distance) (dim leafSize : ℕ) (rows : List Pt) (q : Pt)
    (k : ℕ) (maxRadius : WithTop ℚ) (hrect : ∀ p ∈ rows, p.length = dim)
    (hls : 1 ≤ leafSize) (hrows : rows ≠ []) :
    LoopInv D dim q k maxRadius ((rows : List Pt) : Multiset Pt)
      [(nodeRdist D (innerNew D leafSize rows) q, innerNew D leafSize rows)] [] ∧
    Covered D q maxRadius ((rows : List Pt) : Multiset Pt)
      [(nodeRdist D (innerNew D leafSize rows) q, innerNew D leafSize rows)] [] := by
  have hwf := innerNew_WF D dim leafSize hls rows hrows hrect
  have hq1 : queuePts [(nodeRdist D (innerNew D leafSize rows) q, innerNew D leafSize rows)] =
      ((rows : List Pt) : Multiset Pt) := by
    rw [queuePts_cons, queuePts_nil, add_zero]
    exact contained_coe_eq D leafSize hls rows
  constructor
  · refine ⟨⟨List.Pairwise.nil, fun e he => absurd he (List.not_mem_nil e), Nat.zero_le k⟩,
      ?_, ?_, ?_⟩
    · intro e he
      rcases List.mem_cons.mp he with h' | h'
      · rw [h']; exact ⟨rfl, hwf⟩
      · cases h'
    · exact List.pairwise_singleton _ _
    · rw [hq1]
      show (0 : Multiset Pt) + _ ≤ _
      rw [zero_add]
  · rw [Covered, hq1]
    show _ ≤ (0 : Multiset Pt) + _
    rw [zero_add]
    exact Multiset.filter_le _ _

theorem nnHelper_buildTree_nil (D : Distance) (dim leafSize k : ℕ) (q : Pt)
    (maxRadius : WithTop ℚ) (hq : q.length = dim) :
    nnHelper (buildTree D dim [] leafSize) q k maxRadius = .ok [] := by
  rw [nnHelper]
  rw [if_neg (by simp [buildTree, hq])]
  rfl

/-- The `k = len` regime: the helper returns exactly the qualifying points,
sorted by distance.  This is the content behind `within_range` and behind
`k_nearest(point, len)`. -/
theorem nnHelper_buildTree_complete (D : Distance) (dim leafSize : ℕ)
    (rows : List Pt) (q : Pt) (maxRadius : WithTop ℚ)
    (hrect : ∀ p ∈ rows, p.length = dim) (hls : 1 ≤ leafSize)
    (hq : q.length = dim) :
    ∃ res : List Pt,
      nnHelper (buildTree D dim rows leafSize) q rows.length maxRadius = .ok res ∧
      res.Perm (rows.filter fun p => decide (qualP D q maxRadius p)) ∧
      res.Pairwise fun a b => D.distance q a ≤ D.distance q b := by
  by_cases hrows : rows = []
  · subst hrows
    exact ⟨[], nnHelper_buildTree_nil D dim leafSize 0 q maxRadius hq, by simp, by simp⟩
  · obtain ⟨hinv, hcov⟩ := initial_inv D dim leafSize rows q rows.length maxRadius
      hrect hls hrows
    have hsum : sumSize [(nodeRdist D (innerNew D leafSize rows) q,
        innerNew D leafSize rows)] < treeSize (innerNew D leafSize rows) + 1 := by
      simp [sumSize]
    obtain ⟨res', hres', hinvres, heqres⟩ := nnLoopF_complete D dim q rows.length
      maxRadius ((rows : List Pt) : Multiset Pt) hq
      (List.length_pos.mpr hrows)
      (by simp) _ _ _ hsum hinv hcov
    refine ⟨res'.map Prod.snd, ?_, ?_, outInv_pairwise_dist hinvres⟩
    · rw [nnHelper]
      rw [if_neg (by simp [buildTree, hq])]
      rw [if_neg (show ¬ (buildTree D dim rows leafSize).len = 0 by
        simp only [buildTree]
        rw [List.length_eq_zero]
        exact hrows)]
      show (match nnLoopF D q rows.length maxRadius
          (treeSize (innerNew D leafSize rows) + 1)
          [(nodeRdist D (innerNew D leafSize rows) q, innerNew D leafSize rows)] [] with
        | none => NnResult.panic
        | some out => NnResult.ok (out.map Prod.snd)) = _
      rw [hres']
    · rw [← Multiset.coe_eq_coe]
      show outPts res' = _
      rw [heqres, Multiset.filter_coe]

/-- General-`k` soundness of the helper on a built index: a returned list
has at most `k` elements, is sorted by true distance, and is a sub-multiset
of the index's points. -/
theorem nnHelper_buildTree_sound (D : Distance) (dim leafSize k : ℕ)
    (rows : List Pt) (q : Pt) (maxRadius : WithTop ℚ)
    (hrect : ∀ p ∈ rows, p.length = dim) (hls : 1 ≤ leafSize)
    (hq : q.length = dim) :
    ∀ pts : List Pt, nnHelper (buildTree D dim rows leafSize) q k maxRadius = .ok pts →
      pts.length ≤ k ∧
      pts.Pairwise (fun a b => D.distance q a ≤ D.distance q b) ∧
      ((pts : List Pt) : Multiset Pt) ≤ ((rows : List Pt) : Multiset Pt) := by
  intro pts hok
  by_cases hrows : rows = []
  · subst hrows
    rw [nnHelper_buildTree_nil D dim leafSize k q maxRadius hq] at hok
    cases hok
    exact ⟨Nat.zero_le k, List.Pairwise.nil, by simp⟩
  · rw [nnHelper] at hok
    rw [if_neg (by simp [buildTree, hq])] at hok
    rw [if_neg (show ¬ (buildTree D dim rows leafSize).len = 0 by
      simp only [buildTree]
      rw [List.length_eq_zero]
      exact hrows)] at hok
    obtain ⟨hinv, _⟩ := initial_inv D dim leafSize rows q k maxRadius hrect hls hrows
    revert hok
    show (match nnLoopF D q k maxRadius (treeSize (innerNew D leafSize rows) + 1)
        [(nodeRdist D (innerNew D leafSize rows) q, innerNew D leafSize rows)] [] with
      | none => NnResult.panic
      | some out => NnResult.ok (out.map Prod.snd)) = NnResult.ok pts → _
    cases hres : nnLoopF D q k maxRadius (treeSize (innerNew D leafSize rows) + 1)
        [(nodeRdist D (innerNew D leafSize rows) q, innerNew D leafSize rows)] [] with
    | none => intro h; cases h
    | some res' =>
      intro h
      have hpts : pts = res'.map Prod.snd := by
        cases h
        rfl
      obtain ⟨hinvres, hle⟩ := nnLoopF_sound D dim q k maxRadius
        ((rows : List Pt) : Multiset Pt) _ _ _ _ hinv hres
      subst hpts
      refine ⟨?_, outInv_pairwise_dist hinvres, ?_⟩
      · rw [List.length_map]
        exact hinvres.len_le
      · exact hle

/-- `k_nearest(point, 0)` on a non-empty index: the first pop immediately
hits `out.len() == k` with an empty heap and `out.peek().unwrap()` panics. -/
theorem kNearest_zero_panic (D : Distance) (dim leafSize : ℕ) (rows : List Pt)
    (q : Pt) (hq : q.length = dim) (hrows : rows ≠ []) :
    (buildTree D dim rows leafSize).kNearest q 0 = .panic := by
  rw [BallTree.kNearest, nnHelper]
  rw [if_neg (by simp [buildTree, hq])]
  rw [if_neg (show ¬ (buildTree D dim rows leafSize).len = 0 by
    simp only [buildTree]
    rw [List.length_eq_zero]
    exact hrows)]
  have hpa : popAction 0 (⊤ : WithTop ℚ) (nodeRdist D (innerNew D leafSize rows) q) [] =
      .panicNow := by
    rw [popAction]
    rw [if_neg (by
      rw [WithTop.top_le_iff]
      exact WithTop.coe_ne_top)]
    rw [if_pos (show ([] : List (ℚ × Pt)).length = 0 from rfl)]
    rfl
  show (match nnLoopF D q 0 ⊤ (treeSize (innerNew D leafSize rows) + 1)
      [(nodeRdist D (innerNew D leafSize rows) q, innerNew D leafSize rows)] [] with
    | none => NnResult.panic
    | some out => NnResult.ok (out.map Prod.snd)) = NnResult.panic
  rw [nnLoopF_succ_cons, hpa]

/-! ## Claims -/

theorem WF.allNodes_bound {D : Distance} {dim : ℕ} {t : BallTreeInner}
    (h : WF D dim t) : ∀ n ∈ allNodes t, ∀ p ∈ contained n,
      D.distance p (nodeCenter n) ≤ nodeRadius n := by
  induction h with
  | leaf hc hlen hrad =>
    intro n hn
    rw [allNodes, List.mem_singleton] at hn
    subst hn
    exact hrad
  | branch hc hrad hl hr ihl ihr =>
    intro n hn
    rw [allNodes, List.mem_cons] at hn
    rcases hn with hn | hn
    · subst hn
      exact hrad
    · rcases List.mem_append.mp hn with hn | hn
      · exact ihl n hn
      · exact ihr n hn

/-- C2, amended: the partitioning routine on a set of at least two points
returns non-empty `left` and `right` with `left ++ right` (the median is a
copy of a member, not an extra element) a permutation of the input, the
median a member of the input, and — whenever any input point lies strictly
below the median on the splitting dimension, i.e. whenever the degenerate
guard does not fire — every left point strictly below the median on that
dimension. -/
theorem c2_partition_props (points : List Pt) (h2 : 2 ≤ points.length) :
    (partition points).1 ≠ [] ∧ (partition points).2.2 ≠ [] ∧
    ((partition points).1 ++ (partition points).2.2).Perm points ∧
    (partition points).2.1 ∈ points ∧
    ((∃ p ∈ points, coordD p (splitDim points) <
        coordD (partition points).2.1 (splitDim points)) →
      ∀ p ∈ (partition points).1,
        coordD p (splitDim points) < coordD (partition points).2.1 (splitDim points)) := by
  refine ⟨partition_left_ne_nil points, partition_right_ne_nil points h2,
    partition_perm points h2, ?_, ?_⟩
  · rw [partition_median_eq]
    exact partMedian_mem points (by omega)
  · rw [partition_median_eq]
    exact partition_strict points

/-- Witness for C2 at a concrete non-degenerate input. -/
theorem c2_partition_props_witness :
    2 ≤ ([[0], [2]] : List Pt).length ∧
    (((partition [[0], [2]]).1 ≠ [] ∧ (partition [[0], [2]]).2.2 ≠ [] ∧
      ((partition [[0], [2]]).1 ++ (partition [[0], [2]]).2.2).Perm [[0], [2]] ∧
      (partition [[0], [2]]).2.1 ∈ ([[0], [2]] : List Pt) ∧
      ((∃ p ∈ ([[0], [2]] : List Pt), coordD p (splitDim [[0], [2]]) <
          coordD (partition [[0], [2]]).2.1 (splitDim [[0], [2]])) →
        ∀ p ∈ (partition [[0], [2]]).1,
          coordD p (splitDim [[0], [2]]) <
            coordD (partition [[0], [2]]).2.1 (splitDim [[0], [2]])))) :=
  ⟨by decide, c2_partition_props [[0], [2]] (by decide)⟩

/-- C3, amended: on an index built from zero rows (and a positive number of
columns), both queries return an empty `Ok` for every query point **of the
index's dimension**, every `k` and every radius.  (A query point of a
different length is rejected with `WrongDimension` even on an empty index —
see the counterexample.) -/
theorem c3_empty_index_queries (D : Distance) (dim leafSize k : ℕ) (q : Pt) (r : ℚ)
    (hdim : dim ≠ 0) (hq : q.length = dim) :
    BallTree.new dim [] leafSize D = .ok (buildTree D dim [] leafSize) ∧
    (buildTree D dim [] leafSize).kNearest q k = .ok [] ∧
    (buildTree D dim [] leafSize).withinRange q r = .ok [] := by
  refine ⟨BallTree.new_ok D dim [] leafSize hdim, ?_, ?_⟩
  · exact nnHelper_buildTree_nil D dim leafSize k q ⊤ hq
  · exact nnHelper_buildTree_nil D dim leafSize 0 q _ hq

/-- Witness for C3 at a concrete empty batch. -/
theorem c3_empty_index_queries_witness :
    ((1 : ℕ) ≠ 0 ∧ ([0] : Pt).length = 1) ∧
    (BallTree.new 1 [] 16 l1Dist = .ok (buildTree l1Dist 1 [] 16) ∧
      (buildTree l1Dist 1 [] 16).kNearest [0] 7 = .ok [] ∧
      (buildTree l1Dist 1 [] 16).withinRange [0] 5 = .ok []) :=
  ⟨⟨by decide, by decide⟩, c3_empty_index_queries l1Dist 1 16 7 [0] 5 (by decide) (by decide)⟩

/-- C3, counterexample to the claim as stated ("for every query point ...
never return an error"): on an index built from a 0×1 batch, a query point
of length 2 is answered with `WrongDimension`, not with an empty sequence. -/
theorem c3_empty_index_counterexample :
    BallTree.new 1 ([] : List Pt) 16 l1Dist = .ok (buildTree l1Dist 1 [] 16) ∧
    (buildTree l1Dist 1 [] 16).kNearest [0, 0] 3 = .error .WrongDimension := by
  constructor
  · exact BallTree.new_ok l1Dist 1 [] 16 (by decide)
  · rfl

/-- Modelled from the spec's words, read literally (§4.4 step 2 / C4): stop
"once the popped lower bound meets or exceeds **both** the max-distance limit
**and** — once the result set already holds `k` candidates — the current
worst accepted candidate's distance".  A conjunction of the two thresholds,
the second applying only when the result set is full. -/
def specStopBoth (k : ℕ) (maxRadius : WithTop ℚ) (d : ℚ) (out : List (ℚ × Pt)) :
    Prop :=
  maxRadius ≤ (d : WithTop ℚ) ∧ (out.length = k → (out.getLastD (0, [])).1 ≤ d)

/-- C4, counterexample to the claim as stated: with `k = 1`, an unbounded max
distance (`k_nearest`'s `+∞`), one accepted candidate at distance `3` and a
popped lower bound `5`, the loop stops (the code breaks on the worst-candidate
test alone), but the claim's conjunctive condition does not hold (the lower
bound does not meet the max-distance limit). -/
theorem c4_stop_condition_counterexample :
    popAction 1 ⊤ 5 [(3, [0])] = .stop ∧ ¬ specStopBoth 1 ⊤ 5 [(3, [0])] := by
  constructor
  · rfl
  · rintro ⟨h1, _⟩
    rw [WithTop.top_le_iff] at h1
    exact WithTop.coe_ne_top h1

/-- C4, amended: popping stops exactly when the queue is exhausted, **or**
the popped lower bound meets or exceeds the max-distance limit, **or** the
result set already holds `k` candidates and the popped lower bound meets or
exceeds the current worst accepted candidate's distance (a disjunction, with
short-circuit evaluation; the worst candidate is the max-heap's peek). -/
theorem c4_stop_condition (D : Distance) (q : Pt) (k : ℕ) (maxRadius : WithTop ℚ)
    (fuel : ℕ) :
    (∀ out : List (ℚ × Pt), nnLoopF D q k maxRadius (fuel + 1) [] out = some out) ∧
    (∀ (d : ℚ) (out : List (ℚ × Pt)),
      popAction k maxRadius d out = .stop ↔
        (maxRadius ≤ (d : WithTop ℚ) ∨
          (out.length = k ∧ ∃ w, out.getLast? = some w ∧ w.1 ≤ d))) :=
  ⟨fun out => nnLoopF_succ_nil D q k maxRadius fuel out,
   fun d out => popAction_stop_iff k maxRadius d out⟩

/-- C6: construction fails with `ZeroDimension` precisely when the batch has
zero columns; with at least one column (and the positive leaf size the spec
prescribes) it always returns a built index — never a partial one, by the
exclusivity of `Except`. -/
theorem c6_zero_dimension (D : Distance) (dim leafSize : ℕ) (batch : List Pt)
    (_hls : 1 ≤ leafSize) :
    (BallTree.new dim batch leafSize D = .error .ZeroDimension ↔ dim = 0) ∧
    (dim ≠ 0 → BallTree.new dim batch leafSize D = .ok (buildTree D dim batch leafSize)) := by
  constructor
  · by_cases hdim : dim = 0
    · rw [BallTree.new, if_pos hdim]
      exact iff_of_true rfl hdim
    · rw [BallTree.new_ok D dim batch leafSize hdim]
      constructor
      · intro h; cases h
      · intro h; exact absurd h hdim
  · exact BallTree.new_ok D dim batch leafSize

/-- Witness for C6 at a concrete batch. -/
theorem c6_zero_dimension_witness :
    1 ≤ 16 ∧
    ((BallTree.new 2 [[1, 2], [3, 4]] 16 l1Dist = .error .ZeroDimension ↔ (2 : ℕ) = 0) ∧
      ((2 : ℕ) ≠ 0 →
        BallTree.new 2 [[1, 2], [3, 4]] 16 l1Dist =
          .ok (buildTree l1Dist 2 [[1, 2], [3, 4]] 16))) :=
  ⟨by decide, c6_zero_dimension l1Dist 2 16 [[1, 2], [3, 4]] (by decide)⟩

/-- C8: on every input of at least two points — the degenerate all-identical
batch included — the partitioning routine returns two non-empty parts, each
strictly smaller than its input, which is what drives the builder's recursion
to leaves. -/
theorem c8_partition_shrinks (points : List Pt) (h2 : 2 ≤ points.length) :
    0 < (partition points).1.length ∧ 0 < (partition points).2.2.length ∧
    (partition points).1.length < points.length ∧
    (partition points).2.2.length < points.length := by
  have hlen := partition_lengths points h2
  have hl := List.length_pos.mpr (partition_left_ne_nil points)
  have hr := List.length_pos.mpr (partition_right_ne_nil points h2)
  exact ⟨hl, hr, hlen.1, hlen.2.1⟩

/-- Witness for C8 at a degenerate input of identical points. -/
theorem c8_partition_shrinks_witness :
    2 ≤ ([[5], [5]] : List Pt).length ∧
    (0 < (partition [[5], [5]]).1.length ∧ 0 < (partition [[5], [5]]).2.2.length ∧
      (partition [[5], [5]]).1.length < ([[5], [5]] : List Pt).length ∧
      (partition [[5], [5]]).2.2.length < ([[5], [5]] : List Pt).length) :=
  ⟨by decide, c8_partition_shrinks [[5], [5]] (by decide)⟩

/-- C10: on an index built from a non-empty batch, `k_nearest(point, 0)` for
a query point of matching dimension panics: the first popped entry reaches
`out.len() == k` with the result heap still empty, and
`out.peek().unwrap()` in the break condition unwraps `None`. -/
theorem c10_k_nearest_zero_panics (D : Distance) (dim leafSize : ℕ)
    (rows : List Pt) (q : Pt) (hdim : dim ≠ 0) (hq : q.length = dim)
    (hrows : rows ≠ []) :
    BallTree.new dim rows leafSize D = .ok (buildTree D dim rows leafSize) ∧
    (buildTree D dim rows leafSize).kNearest q 0 = .panic :=
  ⟨BallTree.new_ok D dim rows leafSize hdim,
   kNearest_zero_panic D dim leafSize rows q hq hrows⟩

/-- Witness for C10 at a concrete singleton batch. -/
theorem c10_k_nearest_zero_panics_witness :
    ((1 : ℕ) ≠ 0 ∧ ([0] : Pt).length = 1 ∧ ([[2]] : List Pt) ≠ []) ∧
    (BallTree.new 1 [[2]] 1 l1Dist = .ok (buildTree l1Dist 1 [[2]] 1) ∧
      (buildTree l1Dist 1 [[2]] 1).kNearest [0] 0 = .panic) :=
  ⟨⟨by decide, by decide, by decide⟩,
   c10_k_nearest_zero_panics l1Dist 1 1 [[2]] [0] (by decide) (by decide) (by decide)⟩

/-- C5: on a built index and a query point of matching dimension,
`k_nearest(point, k)` — whenever it returns — returns at most `k` points,
sorted by non-decreasing true distance, forming a sub-multiset of the index's
points; and `k_nearest(point, len)` does return, with all points of the index
sorted by distance. -/
theorem c5_k_nearest_props (D : Distance) (dim leafSize : ℕ) (rows : List Pt)
    (q : Pt) (hdim : dim ≠ 0) (hrect : ∀ p ∈ rows, p.length = dim)
    (hls : 1 ≤ leafSize) (hq : q.length = dim) :
    BallTree.new dim rows leafSize D = .ok (buildTree D dim rows leafSize) ∧
    (∀ (k : ℕ) (pts : List Pt),
      (buildTree D dim rows leafSize).kNearest q k = .ok pts →
        pts.length ≤ k ∧
        pts.Pairwise (fun a b => D.distance q a ≤ D.distance q b) ∧
        ((pts : List Pt) : Multiset Pt) ≤ ((rows : List Pt) : Multiset Pt)) ∧
    (∃ pts : List Pt,
      (buildTree D dim rows leafSize).kNearest q
          (buildTree D dim rows leafSize).len = .ok pts ∧
        pts.Perm rows ∧
        pts.Pairwise (fun a b => D.distance q a ≤ D.distance q b)) := by
  refine ⟨BallTree.new_ok D dim rows leafSize hdim, ?_, ?_⟩
  · intro k pts hok
    exact nnHelper_buildTree_sound D dim leafSize k rows q ⊤ hrect hls hq pts hok
  · obtain ⟨res, hres, hperm, hsorted⟩ :=
      nnHelper_buildTree_complete D dim leafSize rows q ⊤ hrect hls hq
    refine ⟨res, hres, ?_, hsorted⟩
    have hfil : (rows.filter fun p => decide (qualP D q ⊤ p)) = rows :=
      List.filter_eq_self.mpr fun a _ =>
        decide_eq_true (show qualP D q ⊤ a from WithTop.coe_lt_top _)
    rw [hfil] at hperm
    exact hperm

/-- Witness for C5 at a concrete two-point batch. -/
theorem c5_k_nearest_props_witness :
    ((1 : ℕ) ≠ 0 ∧ (∀ p ∈ ([[0], [2]] : List Pt), p.length = 1) ∧
      (1 : ℕ) ≤ 1 ∧ ([1] : Pt).length = 1) ∧
    (BallTree.new 1 [[0], [2]] 1 l1Dist = .ok (buildTree l1Dist 1 [[0], [2]] 1) ∧
      (∀ (k : ℕ) (pts : List Pt),
        (buildTree l1Dist 1 [[0], [2]] 1).kNearest [1] k = .ok pts →
          pts.length ≤ k ∧
          pts.Pairwise (fun a b => l1Dist.distance [1] a ≤ l1Dist.distance [1] b) ∧
          ((pts : List Pt) : Multiset Pt) ≤ (([[0], [2]] : List Pt) : Multiset Pt)) ∧
      (∃ pts : List Pt,
        (buildTree l1Dist 1 [[0], [2]] 1).kNearest [1]
            (buildTree l1Dist 1 [[0], [2]] 1).len = .ok pts ∧
          pts.Perm [[0], [2]] ∧
          pts.Pairwise (fun a b => l1Dist.distance [1] a ≤ l1Dist.distance [1] b))) :=
  ⟨⟨by decide, by decide, by decide, by decide⟩,
   c5_k_nearest_props l1Dist 1 1 [[0], [2]] [1] (by decide) (by decide) (by decide)
     (by decide)⟩

/-- C7: in every tree produced by a successful construction, every node —
`Leaf` or `Branch` — has every point transitively contained under it within
the node's `radius` of the node's `center`, under the real distance. -/
theorem c7_bounding_sphere_invariant (D : Distance) (dim leafSize : ℕ)
    (rows : List Pt) (hdim : dim ≠ 0) (hrect : ∀ p ∈ rows, p.length = dim)
    (hls : 1 ≤ leafSize) :
    BallTree.new dim rows leafSize D = .ok (buildTree D dim rows leafSize) ∧
    ∀ n ∈ allNodes (buildTree D dim rows leafSize).tree,
      ∀ p ∈ contained n, D.distance p (nodeCenter n) ≤ nodeRadius n := by
  refine ⟨BallTree.new_ok D dim rows leafSize hdim, ?_⟩
  by_cases hrows : rows = []
  · subst hrows
    intro n hn p hp
    have htree : (buildTree D dim ([] : List Pt) leafSize).tree =
        BallTreeInner.leaf [] 0 [] := rfl
    rw [htree] at hn
    rw [allNodes, List.mem_singleton] at hn
    subst hn
    cases hp
  · exact (innerNew_WF D dim leafSize hls rows hrows hrect).allNodes_bound

/-- Witness for C7 at a concrete two-point batch. -/
theorem c7_bounding_sphere_invariant_witness :
    ((1 : ℕ) ≠ 0 ∧ (∀ p ∈ ([[0], [2]] : List Pt), p.length = 1) ∧ (1 : ℕ) ≤ 1) ∧
    (BallTree.new 1 [[0], [2]] 1 l1Dist = .ok (buildTree l1Dist 1 [[0], [2]] 1) ∧
      ∀ n ∈ allNodes (buildTree l1Dist 1 [[0], [2]] 1).tree,
        ∀ p ∈ contained n, l1Dist.distance p (nodeCenter n) ≤ nodeRadius n) :=
  ⟨⟨by decide, by decide, by decide⟩,
   c7_bounding_sphere_invariant l1Dist 1 1 [[0], [2]] (by decide) (by decide) (by decide)⟩

/-- C1, amended: `within_range(point, r)` returns exactly the indexed points
whose true distance to `point` is **strictly less than** `r` (the leaf scan
accepts on `dist < max_radius`, so points at distance exactly `r` are
excluded), ordered by non-decreasing distance. -/
theorem c1_within_range_exact (D : Distance) (dim leafSize : ℕ) (rows : List Pt)
    (q : Pt) (r : ℚ) (hdim : dim ≠ 0) (hrect : ∀ p ∈ rows, p.length = dim)
    (hls : 1 ≤ leafSize) (hq : q.length = dim) :
    BallTree.new dim rows leafSize D = .ok (buildTree D dim rows leafSize) ∧
    ∃ pts : List Pt,
      (buildTree D dim rows leafSize).withinRange q r = .ok pts ∧
      pts.Perm (rows.filter fun p => decide (D.distance q p < r)) ∧
      pts.Pairwise fun a b => D.distance q a ≤ D.distance q b := by
  refine ⟨BallTree.new_ok D dim rows leafSize hdim, ?_⟩
  obtain ⟨res, hres, hperm, hsorted⟩ := nnHelper_buildTree_complete D dim leafSize
    rows q ((D.dist_to_rdist r : ℚ) : WithTop ℚ) hrect hls hq
  refine ⟨res, hres, ?_, hsorted⟩
  have hfil : (rows.filter fun p =>
      decide (qualP D q ((D.dist_to_rdist r : ℚ) : WithTop ℚ) p)) =
      rows.filter fun p => decide (D.distance q p < r) := by
    refine List.filter_congr ?_
    intro p _
    rw [decide_eq_decide]
    rw [qualP, WithTop.coe_lt_coe, D.rdist_eq, D.d2r_lt_iff]
  rw [hfil] at hperm
  exact hperm

/-- Witness for C1 (amended) at a concrete two-point batch. -/
theorem c1_within_range_exact_witness :
    ((1 : ℕ) ≠ 0 ∧ (∀ p ∈ ([[0], [2]] : List Pt), p.length = 1) ∧
      (1 : ℕ) ≤ 1 ∧ ([0] : Pt).length = 1) ∧
    (BallTree.new 1 [[0], [2]] 1 l1Dist = .ok (buildTree l1Dist 1 [[0], [2]] 1) ∧
      ∃ pts : List Pt,
        (buildTree l1Dist 1 [[0], [2]] 1).withinRange [0] 1 = .ok pts ∧
        pts.Perm (([[0], [2]] : List Pt).filter fun p =>
          decide (l1Dist.distance [0] p < 1)) ∧
        pts.Pairwise fun a b => l1Dist.distance [0] a ≤ l1Dist.distance [0] b) :=
  ⟨⟨by decide, by decide, by decide, by decide⟩,
   c1_within_range_exact l1Dist 1 1 [[0], [2]] [0] 1 (by decide) (by decide) (by decide)
     (by decide)⟩

/-- C1, counterexample to the claim as stated (`≤ r`): the index on the
single point `[1]`, queried at `[0]` with radius `1`.  The point's true
distance is exactly `1 ≤ r`, yet `within_range` returns the empty list — the
boundary is exclusive. -/
theorem c1_within_range_counterexample :
    BallTree.new 1 [[1]] 1 l1Dist = .ok (buildTree l1Dist 1 [[1]] 1) ∧
    l1Dist.distance [0] [1] ≤ 1 ∧ ([1] : Pt) ∈ ([[1]] : List Pt) ∧
    (buildTree l1Dist 1 [[1]] 1).withinRange [0] 1 = .ok [] := by
  have h1 : centroid 1 [[1]] = [1] := by norm_num [centroid]
  have h3 : calcRadius l1Dist [[1]] [1] = 0 := by
    norm_num [calcRadius, listMax, l1Dist, l1d]
  have h2 : innerNew l1Dist 1 [[1]] = .leaf [1] 0 [[1]] := by
    rw [innerNew]
    show innerNewF l1Dist 1 (0 + 1) [[1]] = _
    rw [innerNewF_succ_le l1Dist 1 0 [[1]] (by decide)]
    show BallTreeInner.leaf (centroid 1 [[1]])
      (calcRadius l1Dist [[1]] (centroid 1 [[1]])) [[1]] = _
    rw [h1, h3]
  have h4 : nodeRdist l1Dist (.leaf [1] 0 [[1]]) [0] = 1 := by
    norm_num [nodeRdist, nodeCenter, nodeRadius, l1Dist, l1d]
  refine ⟨BallTree.new_ok l1Dist 1 [[1]] 1 (by decide), by norm_num [l1Dist, l1d],
    by decide, ?_⟩
  have htree : (buildTree l1Dist 1 [[1]] 1).tree = BallTreeInner.leaf [1] 0 [[1]] := h2
  have hdf : (buildTree l1Dist 1 [[1]] 1).distFn = l1Dist := rfl
  have hlen : (buildTree l1Dist 1 [[1]] 1).len = 1 := rfl
  rw [BallTree.withinRange, nnHelper]
  rw [if_neg (by decide)]
  rw [if_neg (by decide)]
  rw [htree, hdf, hlen, h4]
  have hd2r : l1Dist.dist_to_rdist 1 = 1 := rfl
  rw [hd2r]
  have hts : treeSize (BallTreeInner.leaf [1] 0 [[1]]) = 1 := rfl
  rw [hts]
  rw [nnLoopF_succ_cons]
  have hpa : popAction 1 (((1 : ℚ) : WithTop ℚ)) 1 [] = .stop := by
    rw [popAction, if_pos (le_refl ((1 : ℚ) : WithTop ℚ))]
  rw [hpa]
  rfl

/-- C2, counterexample to the claim as stated, at the degenerate input
`[[1], [1]]` (two identical points): `left ∪ {median} ∪ right` has three
elements and cannot be a permutation of the two-element input (the median is
a *copy* of an input point, which itself stays in `left ∪ right`), and the
left part produced by the degenerate guard ties with — is not strictly below
— the median on the splitting dimension. -/
theorem c2_partition_counterexample :
    partition [[1], [1]] = ([[1]], [1], [[1]]) ∧
    ¬ (((partition [[1], [1]]).1 ++ (partition [[1], [1]]).2.1 ::
        (partition [[1], [1]]).2.2).Perm [[1], [1]]) ∧
    ¬ (∀ p ∈ (partition [[1], [1]]).1,
        coordD p (splitDim [[1], [1]]) <
          coordD (partition [[1], [1]]).2.1 (splitDim [[1], [1]])) := by
  have hsd : splitDim ([[1], [1]] : List Pt) = 0 := by
    simp [splitDim, List.range_succ]
  have hps : partSorted ([[1], [1]] : List Pt) = [[1], [1]] := by
    rw [partSorted, hsd]
    simp [List.insertionSort, List.orderedInsert, keyLE, coordD]
  have hpm : partMedian ([[1], [1]] : List Pt) = [1] := by
    rw [partMedian, hps]
    rfl
  have hpp : partPair ([[1], [1]] : List Pt) = ([], [[1], [1]]) := by
    rw [partPair, hps, hpm, hsd]
    simp [coordD]
  have hpart : partition ([[1], [1]] : List Pt) = ([[1]], [1], [[1]]) := by
    rw [partition, hpp, hpm]
    simp
  refine ⟨hpart, ?_, ?_⟩
  · rw [hpart]
    intro h
    have := h.length_eq
    simp at this
  · rw [hpart, hsd]
    intro h
    have := h [1] (by simp)
    simp [coordD] at this
